import Mathlib

/-!
Zippy: snapshot store, ignore matcher, diff and patch engine.

A shallow embedding of `src/zippy.go` (package `main`) and a verification of what
its specification says about `diff`, `shouldIgnore`, `restore`, `commit`,
`patch`, `add` and `status`.

Conventions of the embedding.

* A Go `string` is a `Str`, a list of code points.  Go indexes strings by byte and
  decodes a rune where it needs one; on valid UTF-8 text the two views agree for
  every operation used here except a glob match that resumes in the middle of a
  multi-byte rune, which the embedding does not represent.
* The standard library is the Unix build (`os.PathSeparator = '/'`), so
  `filepath.ToSlash` is the identity and a backslash escapes in glob patterns.
* Loops of the source become structural recursion, or recursion on a fuel argument
  that is supplied as the length of the text still to be scanned; `Match_fuel`
  shows that the fuel supplied is never exhausted.
* The file system is a list of absolute cleaned paths, each a directory or a regular
  file with its bytes.  There are no symbolic links and no permissions: an
  operation fails only for the shape of the tree (a missing parent, a directory
  where a file is to be written, a file where a directory is needed).  File modes
  are not represented.
* Files that the program decodes are kept decoded: the staged-entry file, the
  version records and the archives.  An archive is the list of its entries; its
  size in bytes on disk is a parameter `sizeOf` of the commands that store it.
* The lines of `.zippyignore` are an argument of the commands that read the file
  (`none` when the file cannot be opened).
* A command returns the new state and the list of the messages it prints.
-/

namespace ZippyVC

/-- A Go string, as its sequence of code points. -/
abbrev Str := List Char

/-! ## `strings` and `path/filepath` (Unix) -/

/-- The path separator byte of the Unix build, `filepath.Separator`. -/
def Separator : Char := '/'

/-- Code points for which `unicode.IsSpace` holds (Unicode White_Space). -/
def isSpace (c : Char) : Bool :=
  let n := c.toNat
  (9 ≤ n && n ≤ 13) || n == 32 || n == 0x85 || n == 0xA0 || n == 0x1680 ||
  (0x2000 ≤ n && n ≤ 0x200A) || n == 0x2028 || n == 0x2029 || n == 0x202F ||
  n == 0x205F || n == 0x3000

/-- Removal of the trailing white space of a string. -/
def trimRight (s : Str) : Str := (s.reverse.dropWhile isSpace).reverse

/-- Model of `strings.TrimSpace`: leading and trailing white space removed. -/
def TrimSpace (s : Str) : Str := trimRight (s.dropWhile isSpace)

/-- Model of `strings.HasPrefix`. -/
def HasPrefix (s pre : Str) : Bool := pre.isPrefixOf s

/-- Model of `strings.HasSuffix`. -/
def HasSuffix (s suf : Str) : Bool := suf.reverse.isPrefixOf s.reverse

/-- Model of `filepath.ToSlash`: the identity when the separator is already `/`. -/
def ToSlash (path : Str) : Str :=
  if Separator = '/' then path else path.map (fun c => if c = Separator then '/' else c)

/-- Model of `filepath.Base` on Unix: the last element of the path, trailing slashes
removed first; `.` for the empty path and `/` for a path of slashes only. -/
def Base (path : Str) : Str :=
  if path = [] then ['.'] else
  let path := (path.reverse.dropWhile (fun c => c == Separator)).reverse
  let path := (path.reverse.takeWhile (fun c => c != Separator)).reverse
  if path = [] then [Separator] else path

/-! ### `filepath.Match` -/

/-- The scanning loop of `scanChunk`: the text up to the first `*` outside a
bracket expression, and the remainder. -/
def scanLoop : Bool → Str → Str × Str
  | _, [] => ([], [])
  | inrange, c :: cs =>
    if c = '\\' then
      match cs with
      | [] => ([c], [])
      | d :: ds => let r := scanLoop inrange ds; (c :: d :: r.1, r.2)
    else if c = '[' then
      let r := scanLoop true cs; (c :: r.1, r.2)
    else if c = ']' then
      let r := scanLoop false cs; (c :: r.1, r.2)
    else if c = '*' then
      if !inrange then ([], c :: cs) else
      let r := scanLoop inrange cs; (c :: r.1, r.2)
    else
      let r := scanLoop inrange cs; (c :: r.1, r.2)

/-- Model of `scanChunk`: whether the segment starts with a star, the star-free
chunk, and the rest of the pattern. -/
def scanChunk (pattern : Str) : Bool × Str × Str :=
  let star := match pattern with
    | c :: _ => c == '*'
    | [] => false
  let r := scanLoop false (pattern.dropWhile (fun c => c == '*'))
  (star, r.1, r.2)

/-- Model of `getEsc`: one possibly escaped character of a bracket expression and
the rest of the chunk; `none` is `ErrBadPattern`. -/
def getEsc (chunk : Str) : Option (Char × Str) :=
  match chunk with
  | [] => none
  | c :: cs =>
    if c = '-' ∨ c = ']' then none
    else if c = '\\' then
      match cs with
      | [] => none
      | r :: n => if n = [] then none else some (r, n)
    else if cs = [] then none else some (c, cs)

/-- Result of matching a chunk: a malformed pattern, a mismatch, or the unmatched
remainder of the name. -/
inductive ChunkResult where
  | bad : ChunkResult
  | fail : ChunkResult
  | ok (rest : Str) : ChunkResult
  deriving DecidableEq, Repr

/-- The range loop of a bracket expression in `matchChunk`: returns whether the rune
`r` fell in some range, and the chunk after the closing bracket; `none` is
`ErrBadPattern`. -/
def classLoop : Nat → Str → Char → Bool → Nat → Option (Bool × Str)
  | 0, _, _, _, _ => none
  | fuel + 1, chunk, r, matched, nrange =>
    match chunk with
    | ']' :: cs =>
      if nrange > 0 then some (matched, cs) else none
    | _ =>
      match getEsc chunk with
      | none => none
      | some (lo, chunk1) =>
        match chunk1 with
        | '-' :: cs =>
          match getEsc cs with
          | none => none
          | some (hi, chunk2) =>
            classLoop fuel chunk2 r (matched || (decide (lo ≤ r) && decide (r ≤ hi))) (nrange + 1)
        | _ =>
          classLoop fuel chunk1 r (matched || (decide (lo ≤ r) && decide (r ≤ lo))) (nrange + 1)

/-- The loop of `matchChunk`.  `failed` records that the match has already failed;
the loop then only checks that the chunk is well formed and reads `s` no more. -/
def matchChunkLoop : Nat → Str → Str → Bool → ChunkResult
  | 0, _, _, _ => .bad
  | fuel + 1, chunk, s, failed =>
    match chunk with
    | [] => if failed then .fail else .ok s
    | c :: cs =>
      let failed := failed || s.isEmpty
      if c = '[' then
        let r := if failed then Char.ofNat 0 else s.headD (Char.ofNat 0)
        let s1 := if failed then s else s.tail
        let negated := match cs with
          | d :: _ => d == '^'
          | [] => false
        let cs1 := if negated then cs.tail else cs
        match classLoop (cs1.length + 1) cs1 r false 0 with
        | none => .bad
        | some (m, rest) => matchChunkLoop fuel rest s1 (failed || (m == negated))
      else if c = '?' then
        if failed then matchChunkLoop fuel cs s failed
        else matchChunkLoop fuel cs s.tail (s.headD (Char.ofNat 0) == Separator)
      else if c = '\\' then
        match cs with
        | [] => .bad
        | d :: ds =>
          if failed then matchChunkLoop fuel ds s failed
          else matchChunkLoop fuel ds s.tail (d != s.headD (Char.ofNat 0))
      else
        if failed then matchChunkLoop fuel cs s failed
        else matchChunkLoop fuel cs s.tail (c != s.headD (Char.ofNat 0))

/-- Model of `matchChunk`: does `chunk` match a prefix of `s`? -/
def matchChunk (chunk s : Str) : ChunkResult :=
  matchChunkLoop (chunk.length + 1) chunk s false

/-- Result of the search that a leading star performs in `Match`. -/
inductive StarResult where
  | bad : StarResult
  | notFound : StarResult
  | found (rest : Str) : StarResult
  deriving DecidableEq, Repr

/-- The loop `for i := 0; i < len(name) && name[i] != Separator; i++` of `Match`:
try the chunk after skipping `i+1` characters, never skipping a separator.
`lastChunk` says that the pattern is exhausted, in which case the chunk has to
consume the whole name. -/
def starLoop (chunk : Str) (lastChunk : Bool) : Str → StarResult
  | [] => .notFound
  | c :: rest =>
    if c = Separator then .notFound else
    match matchChunk chunk rest with
    | .ok t => if lastChunk && !t.isEmpty then starLoop chunk lastChunk rest else .found t
    | .bad => .bad
    | .fail => starLoop chunk lastChunk rest

/-- The closing loop of `Match`: the rest of the pattern is checked for syntax
before `false` is returned without error.  `true` means well formed. -/
def restValid : Nat → Str → Bool
  | 0, _ => true
  | fuel + 1, pattern =>
    if pattern = [] then true else
    let sc := scanChunk pattern
    match matchChunk sc.2.1 [] with
    | .bad => false
    | _ => restValid fuel sc.2.2

/-- The outer loop of `Match`.  `none` is `ErrBadPattern`, `some b` is `(b, nil)`. -/
def matchLoop : Nat → Str → Str → Option Bool
  | 0, _, _ => none
  | fuel + 1, pattern, name =>
    if pattern = [] then some name.isEmpty else
    let sc := scanChunk pattern
    let star := sc.1
    let chunk := sc.2.1
    let pattern := sc.2.2
    if star && chunk.isEmpty then some (!name.contains Separator) else
    let finish : Option Bool := if restValid (pattern.length + 1) pattern then some false else none
    match matchChunk chunk name with
    | .ok t =>
      if t.isEmpty || !pattern.isEmpty then matchLoop fuel pattern t
      else if star then
        match starLoop chunk pattern.isEmpty name with
        | .found t1 => matchLoop fuel pattern t1
        | .bad => none
        | .notFound => finish
      else finish
    | .bad => none
    | .fail =>
      if star then
        match starLoop chunk pattern.isEmpty name with
        | .found t1 => matchLoop fuel pattern t1
        | .bad => none
        | .notFound => finish
      else finish

/-- Model of `filepath.Match(pattern, name)`: `some b` when the pattern is well
formed enough for an answer, `none` for `ErrBadPattern`. -/
def Match (pattern name : Str) : Option Bool :=
  matchLoop (pattern.length + 1) pattern name

/-! ## The ignore matcher -/

/-- The body of the loop over `zippyignore.patterns` in `shouldIgnore`, for an
already normalised `filePath`. -/
def shouldIgnoreLoop (filePath : Str) : List Str → Bool
  | [] => false
  | pattern :: rest =>
    let pattern := TrimSpace pattern
    if pattern = [] then shouldIgnoreLoop filePath rest else
    let pattern := ToSlash pattern
    if HasSuffix pattern ['/'] then
      if HasPrefix filePath pattern then true else shouldIgnoreLoop filePath rest
    else
      if Match pattern filePath = some true then true
      else if Match pattern (Base filePath) = some true then true
      else shouldIgnoreLoop filePath rest

/-- Model of `(*ZippyIgnore).shouldIgnore`; `patterns` is the receiver's field. -/
def shouldIgnore (patterns : List Str) (filePath : Str) : Bool :=
  shouldIgnoreLoop (ToSlash filePath) patterns

/-! ## Paths

Every path the program hands to the operating system is built by
`filepath.Join(cwd, ...)`, so it is absolute and cleaned.  Such a path is
represented by the list of its elements below the root directory. -/

/-- An absolute, cleaned path: its elements from the root. -/
abbrev Path := List Str

/-- The elements of a slash-separated string, empty ones included. -/
def splitSlash : Str → List Str
  | [] => [[]]
  | c :: cs =>
    if c = '/' then [] :: splitSlash cs
    else match splitSlash cs with
      | [] => [[c]]
      | h :: t => (c :: h) :: t

/-- One element of `filepath.Clean` on a rooted path: empty and `.` elements vanish,
`..` removes the element before it (and is dropped at the root). -/
def cleanStep (stack : Path) (elem : Str) : Path :=
  if elem = [] ∨ elem = ['.'] then stack
  else if elem = ['.', '.'] then stack.dropLast
  else stack ++ [elem]

/-- Model of `filepath.Join(base, name)` for an absolute cleaned `base`:
`Clean(base + "/" + name)`. -/
def Join (base : Path) (name : Str) : Path :=
  (splitSlash name).foldl cleanStep base

/-- Model of `filepath.Dir` on an absolute cleaned path. -/
def Dir (p : Path) : Path := p.dropLast

/-- A cleaned relative path written with slashes; the empty one is `.`. -/
def render (elems : List Str) : Str :=
  if elems = [] then ['.'] else List.intercalate ['/'] elems

/-- The number of leading elements that two paths share. -/
def commonLen : Path → Path → Nat
  | a :: as, b :: bs => if a = b then commonLen as bs + 1 else 0
  | _, _ => 0

/-- Model of `filepath.Rel(base, targ)` on absolute cleaned paths: one `..` for every
element of `base` below the common ancestor, then the rest of `targ`. -/
def Rel (base targ : Path) : Str :=
  render (List.replicate (base.length - commonLen base targ) ['.', '.'] ++
    targ.drop (commonLen base targ))

/-- The path that a relative name denotes below some directory, as its elements
below that directory; `none` when the name climbs above the directory. -/
def relCleanLoop (stack : Path) : List Str → Option Path
  | [] => some stack
  | elem :: rest =>
    if elem = [] ∨ elem = ['.'] then relCleanLoop stack rest
    else if elem = ['.', '.'] then
      if stack = [] then none else relCleanLoop stack.dropLast rest
    else relCleanLoop (stack ++ [elem]) rest

/-- The place of `name` below a directory: `filepath.Join(dir, name)` taken relative
to `dir`, when it stays below `dir`. -/
def below (name : Str) : Option Path := relCleanLoop [] (splitSlash name)

/-- A cleaned relative path that names something below the directory it is joined
to: it does not climb, it is not `.`, and `filepath.Clean` leaves it as it is. -/
def isCleanRel (name : Str) : Bool :=
  match below name with
  | some q => q != [] && render q == name
  | none => false

/-- The string form of an absolute cleaned path. -/
def renderAbs (p : Path) : Str := '/' :: List.intercalate ['/'] p

/-- The file that the operating system opens for the name `s` when the working
directory is `cwd`. -/
def osPath (cwd : Path) (s : Str) : Path :=
  match s with
  | '/' :: _ => Join [] s
  | _ => Join cwd s

/-! ## Archives, records and fingerprint maps -/

/-- File contents; each element stands for one byte. -/
abbrev Bytes := List Nat

/-- One step of the bitwise CRC-32 (IEEE, reflected polynomial `0xEDB88320`). -/
def crcShift (c : Nat) : Nat :=
  if c % 2 = 1 then Nat.xor (c / 2) 0xEDB88320 else c / 2

/-- The CRC register after one more byte. -/
def crcByte (c b : Nat) : Nat :=
  crcShift (crcShift (crcShift (crcShift (crcShift (crcShift (crcShift (crcShift
    (Nat.xor c (b % 256)))))))))

/-- Model of the IEEE CRC-32 of `hash/crc32`, the checksum that `archive/zip` stores
with every entry and that `fileCRC32` computes for a live file. -/
def crc32 (data : Bytes) : Nat :=
  Nat.xor (data.foldl crcByte 0xFFFFFFFF) 0xFFFFFFFF

/-- An entry of a zip archive (`zip.File`): its name, its contents and whether its
external attributes mark it as a directory. -/
structure ZipEntry where
  Name : Str
  data : Bytes
  dirAttr : Bool
  deriving DecidableEq, Repr

/-- Model of `f.FileInfo().IsDir()`: the directory bit of the mode, which
`archive/zip` also sets for every name that ends in a slash. -/
def ZipEntry.IsDir (f : ZipEntry) : Bool := f.dirAttr || HasSuffix f.Name ['/']

/-- Model of the field `f.CRC32` of an entry of a readable archive. -/
def ZipEntry.CRC32 (f : ZipEntry) : Nat := crc32 f.data

/-- A zip archive: its entries in directory order (`zipReader.File`). -/
abbrev Archive := List ZipEntry

/-- Model of `writer.Create(name)` followed by `io.Copy(f, file)`: a new entry is
appended.  A name with a trailing slash creates a directory entry, to which the
copy writes nothing. -/
def zipCreate (a : Archive) (name : Str) (data : Bytes) : Archive :=
  a ++ [{ Name := name, data := if HasSuffix name ['/'] then [] else data, dirAttr := false }]

/-- The Go struct `Version`. -/
structure Version where
  Tag : Str
  Message : Str
  Timestamp : Int
  Author : Str
  FilesCount : Int
  ZipPath : Str
  Size : Int
  deriving DecidableEq, Repr

/-- A Go `map[string]uint32`.  The order of the list is the order in which a `range`
loop happens to visit the map. -/
abbrev FMap := List (Str × Nat)

/-- Model of the map read `v, ok := m[name]`. -/
def FMap.get (m : FMap) (name : Str) : Option Nat := m.lookup name

/-- Model of the map write `m[name] = crc`. -/
def FMap.set : FMap → Str → Nat → FMap
  | [], name, crc => [(name, crc)]
  | (k, v) :: m, name, crc =>
    if k = name then (name, crc) :: m else (k, v) :: FMap.set m name crc

/-- The keys of a map, in visiting order. -/
def FMap.keys (m : FMap) : List Str := m.map Prod.fst

/-- The closure `readZip` of `diff`, once the archive is open: every entry that is
not a directory is recorded with its checksum. -/
def readZipEntries (files : FMap) : Archive → FMap
  | [] => files
  | f :: rest =>
    if !f.IsDir then readZipEntries (files.set f.Name f.CRC32) rest
    else readZipEntries files rest

/-- The first comparison loop of `diff`: `for name, crc := range files2`. -/
def diffLoopNew (files1 : FMap) : FMap → List Str × List Str
  | [] => ([], [])
  | (name, crc) :: rest =>
    let r := diffLoopNew files1 rest
    match files1.get name with
    | none => (name :: r.1, r.2)
    | some crc1 => if crc1 ≠ crc then (r.1, name :: r.2) else r

/-- The second comparison loop of `diff`: `for name := range files1`. -/
def diffLoopOld (files2 : FMap) : FMap → List Str
  | [] => []
  | (name, _) :: rest =>
    match files2.get name with
    | none => name :: diffLoopOld files2 rest
    | some _ => diffLoopOld files2 rest

/-- The outcome of the comparison in `diff`. -/
structure DiffResult where
  added : List Str
  removed : List Str
  changed : List Str
  deriving DecidableEq, Repr

/-- The comparison of `diff` (source lines 959-971) on the two maps `files1` (first
version) and `files2` (second version). -/
def diffMaps (files1 files2 : FMap) : DiffResult :=
  let r := diffLoopNew files1 files2
  { added := r.1, removed := diffLoopOld files2 files1, changed := r.2 }


/-! ## The file system -/

/-- What a path names: a regular file with its contents, or a directory. -/
inductive Node where
  | file (data : Bytes) : Node
  | dir : Node
  deriving DecidableEq, Repr

/-- A tree of files and directories, as the list of its paths.  The root `[]` is
always a directory.  In a well-formed tree every proper prefix of a listed path is
listed as a directory; the operations below keep it so. -/
abbrev FS := List (Path × Node)

/-- Model of `os.Stat`: what `p` names, if anything. -/
def FS.stat (fs : FS) (p : Path) : Option Node :=
  if p = [] then some Node.dir else fs.lookup p

/-- The tree with `p` naming `n`. -/
def FS.put (fs : FS) (p : Path) (n : Node) : FS :=
  (p, n) :: fs.filter (fun kv => kv.1 != p)

/-- The loop behind `os.MkdirAll`: the prefixes of the path are visited from the
root; a missing one is created, a regular file in the way is an error. -/
def mkdirLoop (fs : FS) (done : Path) : List Str → FS × Bool
  | [] => (fs, true)
  | e :: rest =>
    match fs.stat (done ++ [e]) with
    | some Node.dir => mkdirLoop fs (done ++ [e]) rest
    | some (Node.file _) => (fs, false)
    | none => mkdirLoop (fs.put (done ++ [e]) Node.dir) (done ++ [e]) rest

/-- Model of `os.MkdirAll(p, 0755)`: the resulting tree and whether the call
succeeded. -/
def MkdirAll (fs : FS) (p : Path) : FS × Bool := mkdirLoop fs [] p

/-- Model of `os.OpenFile(p, O_WRONLY|O_CREATE|O_TRUNC, mode)` or `os.Create(p)`
followed by a copy of `data` into the file: it fails when the parent of `p` is
not a directory or when `p` is a directory. -/
def FS.create (fs : FS) (p : Path) (data : Bytes) : Option FS :=
  if p = [] then none
  else match fs.stat (Dir p) with
    | some Node.dir =>
      match fs.stat p with
      | some Node.dir => none
      | _ => some (fs.put p (Node.file data))
    | _ => none

/-- The lexical order in which `filepath.Walk` visits paths. -/
def walkLE (a b : Path × Node) : Prop := a.1 ≤ b.1

instance : DecidableRel walkLE := fun a b => inferInstanceAs (Decidable (a.1 ≤ b.1))

/-- Everything strictly below `root`, in the order of `filepath.Walk`. -/
def FS.descendants (fs : FS) (root : Path) : List (Path × Node) :=
  (fs.filter (fun kv => root.isPrefixOf kv.1 && kv.1 != root)).insertionSort walkLE

/-- Model of `os.RemoveAll(root)`. -/
def FS.removeAll (fs : FS) (root : Path) : FS :=
  fs.filter (fun kv => !root.isPrefixOf kv.1)

/-! ## The repository -/

/-- The receiver `Zippy` after `initPaths`: the paths of the repository. -/
structure Zippy where
  repoPath : Path
  zippyPath : Path
  versionsPath : Path
  storagePath : Path
  stagePath : Path
  deriving DecidableEq, Repr

/-- The assignments of `initPaths` for the working directory `cwd`.  The test that
`.zippy` exists, after which `main` runs a command, is not part of it. -/
def initPaths (cwd : Path) : Zippy :=
  { repoPath := cwd
    zippyPath := Join cwd ".zippy".toList
    versionsPath := Join (Join cwd ".zippy".toList) "versions".toList
    storagePath := Join (Join cwd ".zippy".toList) "storage".toList
    stagePath := Join (Join cwd ".zippy".toList) "stage.json".toList }

/-- The state the commands work on.  `fs` holds the directories and the plain files.
The files whose contents the program interprets are kept in decoded form: the
staged-entry file (`stage`, absent or a JSON array of strings), the version record
files (`records`, each unparsable or a `Version`) and the archives (`archives`),
the last two keyed by the path of the file. -/
structure World where
  fs : FS
  stage : Option (List Str)
  records : List (Path × Option Version)
  archives : List (Path × Archive)
  deriving DecidableEq, Repr

/-- Can a file be created or rewritten at `p`: its parent is a directory and `p` is
not one. -/
def World.canWrite (w : World) (p : Path) : Bool :=
  p != [] && w.fs.stat (Dir p) == some Node.dir && w.fs.stat p != some Node.dir

/-- The list `l` with the key `p` bound to `x`. -/
def putKey {α : Type} (l : List (Path × α)) (p : Path) (x : α) : List (Path × α) :=
  (p, x) :: l.filter (fun kv => kv.1 != p)

/-- What the commands print, one constructor for each message. -/
inductive Msg where
  | comparing (v1 v2 : Str) : Msg
  | errorLoadingMetadata : Msg
  | errorReading (version : Str) : Msg
  | addedFile (name : Str) : Msg
  | removedFile (name : Str) : Msg
  | changedFile (name : Str) : Msg
  | noDifferences : Msg
  | restoring (version restorePath : Str) : Msg
  | versionMetadataNotFound : Msg
  | corruptVersionMetadata : Msg
  | errorOpeningZip : Msg
  | errorRestoring (name : Str) : Msg
  | restored (name : Str) : Msg
  | notFoundInVersion (restorePath version : Str) : Msg
  | restoreComplete : Msg
  | creatingVersion (version message : Str) : Msg
  | noFilesStaged : Msg
  | errorCreatingZip : Msg
  | packed (count : Nat) (zipName : Str) : Msg
  | versionCreated (version : Str) : Msg
  | patching (version addPath : Str) : Msg
  | fileToAddNotFound : Msg
  | errorCopying : Msg
  | patchComplete : Msg
  | addingFiles : Msg
  | added (name : Str) : Msg
  | notFound (name : Str) : Msg
  | ignoredPath (name : Str) : Msg
  | noFilesAdded : Msg
  | statusHeader : Msg
  | toBeCommitted (name : Str) : Msg
  | noneToBeCommitted : Msg
  | ignoredFile (name : Str) : Msg
  | noneIgnored : Msg
  | comparedToLatest : Msg
  | newFile (name : Str) : Msg
  | deletedFile (name : Str) : Msg
  | modifiedFile (name : Str) : Msg
  | noChanges : Msg
  deriving DecidableEq, Repr

/-- Model of `saveVersionInfo`: the record file named after the tag is written; a
failure of `os.WriteFile` goes unnoticed. -/
def saveVersionInfo (z : Zippy) (w : World) (version : Version) : World :=
  let versionFile := Join z.versionsPath (version.Tag ++ ".json".toList)
  if w.canWrite versionFile then
    { w with records := putKey w.records versionFile (some version) }
  else w

/-! ### `diff` -/

/-- The closure `getZipPath` of `diff`: the archive location stored in the record of
`version`; `none` when the record file is missing or unparsable. -/
def getZipPath (z : Zippy) (w : World) (version : Str) : Option Str :=
  match w.records.lookup (Join z.versionsPath (version ++ ".json".toList)) with
  | some (some v) => some v.ZipPath
  | _ => none

/-- The closure `readZip` of `diff`; `none` when the archive cannot be opened. -/
def readZip (z : Zippy) (w : World) (zipPath : Str) (files : FMap) : Option FMap :=
  match w.archives.lookup (osPath z.repoPath zipPath) with
  | none => none
  | some a => some (readZipEntries files a)

/-- The report that `diff` prints for a comparison. -/
def diffReport (r : DiffResult) : List Msg :=
  r.added.map Msg.addedFile ++ r.removed.map Msg.removedFile ++
  r.changed.map Msg.changedFile ++
  (if r.added.length = 0 ∧ r.removed.length = 0 ∧ r.changed.length = 0
   then [Msg.noDifferences] else [])

/-- Model of `(*Zippy).diff`: the messages printed. -/
def diff (z : Zippy) (w : World) (v1 v2 : Str) : List Msg :=
  match getZipPath z w v1, getZipPath z w v2 with
  | some zip1, some zip2 =>
    match readZip z w zip1 [] with
    | none => [Msg.comparing v1 v2, Msg.errorReading v1]
    | some files1 =>
      match readZip z w zip2 [] with
      | none => [Msg.comparing v1 v2, Msg.errorReading v2]
      | some files2 => Msg.comparing v1 v2 :: diffReport (diffMaps files1 files2)
  | _, _ => [Msg.comparing v1 v2, Msg.errorLoadingMetadata]

/-! ### `restore` -/

/-- The loop of `restore` over the entries of the archive.  The state is the tree,
the flag `restored` and the messages printed so far.  An entry of a readable
archive opens and copies without error, so the only failure is that of
`os.OpenFile`. -/
def restoreLoop (z : Zippy) (restorePath : Str) :
    Archive → FS → Bool → List Msg → FS × Bool × List Msg
  | [], fs, restored, log => (fs, restored, log)
  | f :: rest, fs, restored, log =>
    let filePath := Join z.repoPath f.Name
    let zipEntryPath := ToSlash f.Name
    if restorePath ≠ [] ∧ zipEntryPath ≠ restorePath ∧
        HasPrefix zipEntryPath (restorePath ++ ['/']) = false then
      restoreLoop z restorePath rest fs restored log
    else if f.IsDir then
      restoreLoop z restorePath rest (MkdirAll fs filePath).1 restored log
    else
      match ((MkdirAll fs (Dir filePath)).1).create filePath f.data with
      | none =>
        restoreLoop z restorePath rest (MkdirAll fs (Dir filePath)).1 restored
          (log ++ [Msg.errorRestoring f.Name])
      | some fs2 =>
        restoreLoop z restorePath rest fs2 true (log ++ [Msg.restored f.Name])

/-- Model of `(*Zippy).restore`: the new state and the messages printed. -/
def restore (z : Zippy) (w : World) (version restorePath : Str) : World × List Msg :=
  match w.records.lookup (Join z.versionsPath (version ++ ".json".toList)) with
  | none => (w, [Msg.restoring version restorePath, Msg.versionMetadataNotFound])
  | some none => (w, [Msg.restoring version restorePath, Msg.corruptVersionMetadata])
  | some (some v) =>
    match w.archives.lookup (osPath z.repoPath v.ZipPath) with
    | none => (w, [Msg.restoring version restorePath, Msg.errorOpeningZip])
    | some a =>
      let restorePath1 := ToSlash restorePath
      let r := restoreLoop z restorePath1 a w.fs false [Msg.restoring version restorePath]
      ({ w with fs := r.1 },
        if !r.2.1 && restorePath1 != [] then
          r.2.2 ++ [Msg.notFoundInVersion restorePath1 version]
        else if r.2.1 then r.2.2 ++ [Msg.restoreComplete]
        else r.2.2)

/-! ### `commit` -/

/-- Model of the scan of `os.Args` in `commit`: the argument after the last
occurrence of `flag`, or `dflt`. -/
def flagValue (flag : Str) : Str → List Str → Str
  | dflt, a :: b :: rest => flagValue flag (if a = flag then b else dflt) (b :: rest)
  | dflt, _ => dflt

/-- The callback of the `filepath.Walk` in `createZipFileWithList`, applied to the
paths of the walk in turn: every regular file is written under its path relative
to the repository root. -/
def walkFilesInto (z : Zippy) : List (Path × Node) → Archive → Archive
  | [], a => a
  | (_, Node.dir) :: rest, a => walkFilesInto z rest a
  | (path, Node.file data) :: rest, a =>
    walkFilesInto z rest (zipCreate a (Rel z.repoPath path) data)

/-- The loop of `createZipFileWithList` over the staged list: a path that cannot be
examined is skipped, a directory is walked, a file is written under the staged
name. -/
def zipListLoop (z : Zippy) (fs : FS) : List Str → Archive → Archive
  | [], a => a
  | relPath :: rest, a =>
    match fs.stat (Join z.repoPath relPath) with
    | none => zipListLoop z fs rest a
    | some Node.dir =>
      zipListLoop z fs rest (walkFilesInto z (fs.descendants (Join z.repoPath relPath)) a)
    | some (Node.file data) => zipListLoop z fs rest (zipCreate a relPath data)

/-- Model of `createZipFileWithList`: `none` is the error of `os.Create`. -/
def createZipFileWithList (z : Zippy) (w : World) (zipPath : Str) (files : List Str) :
    Option (World × List Msg) :=
  if w.canWrite (osPath z.repoPath zipPath) then
    some ({ w with archives :=
              putKey w.archives (osPath z.repoPath zipPath) (zipListLoop z w.fs files []) },
          [Msg.packed files.length (Base zipPath)])
  else none

/-- Model of `(*Zippy).commit`.  `args` is `os.Args`, `unixNow` the value of
`time.Now().Unix()` at the start, `now` the later `time.Now()`, and `sizeOf` gives
the size in bytes of the file that holds an archive. -/
def commit (sizeOf : Archive → Int) (z : Zippy) (args : List Str) (unixNow now : Int)
    (w : World) : World × List Msg :=
  let message := flagValue "-m".toList "No message".toList args
  let version := flagValue "-v".toList ('v' :: (toString unixNow).toList) args
  let stageList : List Str := match w.stage with
    | some l => l
    | none => []
  if stageList.length = 0 then
    (w, [Msg.creatingVersion version message, Msg.noFilesStaged])
  else
    let zipPath := renderAbs (Join z.storagePath (version ++ ".zip".toList))
    match createZipFileWithList z w zipPath stageList with
    | none => (w, [Msg.creatingVersion version message, Msg.errorCreatingZip])
    | some (w1, out) =>
      let versionInfo : Version :=
        { Tag := version, Message := message, Timestamp := now, Author := "User".toList,
          ZipPath := zipPath, FilesCount := stageList.length,
          Size := match w1.archives.lookup (osPath z.repoPath zipPath) with
            | some a => sizeOf a
            | none => 0 }
      ({ saveVersionInfo z w1 versionInfo with stage := none },
        Msg.creatingVersion version message :: out ++ [Msg.versionCreated version])

/-! ### `patch`

The scratch directory that `os.MkdirTemp` creates is a tree of its own, with the
scratch directory as its root.  It is new and is removed on every return, so it
is not part of the `World`.  A name that climbs above the scratch directory is
written outside of it: such a write is taken to succeed and leaves the scratch
tree as it is. -/

/-- The extraction loop of `patchVersion`; every error is skipped. -/
def extractLoop : Archive → FS → FS
  | [], s => s
  | f :: rest, s =>
    match below f.Name with
    | none => extractLoop rest s
    | some q =>
      if f.IsDir then extractLoop rest (MkdirAll s q).1
      else match ((MkdirAll s (Dir q)).1).create q f.data with
        | none => extractLoop rest (MkdirAll s (Dir q)).1
        | some s2 => extractLoop rest s2

/-- The callback of the `filepath.Walk` in `copyDir`, applied to the paths of the
walk in turn; `none` is the first error, which ends the walk. -/
def copyDirLoop (src dst : Path) : List (Path × Node) → FS → Option FS
  | [], s => some s
  | (path, Node.dir) :: rest, s =>
    if (MkdirAll s (Join dst (Rel src path))).2 then
      copyDirLoop src dst rest (MkdirAll s (Join dst (Rel src path))).1
    else none
  | (path, Node.file data) :: rest, s =>
    match s.create (Join dst (Rel src path)) data with
    | none => none
    | some s1 => copyDirLoop src dst rest s1

/-- The callback of the `filepath.Walk` over the scratch directory in `patchVersion`:
every regular file is written under its path relative to the scratch directory
and counted. -/
def rezipLoop : List (Path × Node) → Archive → Nat → Archive × Nat
  | [], a, fileCount => (a, fileCount)
  | (_, Node.dir) :: rest, a, fileCount => rezipLoop rest a fileCount
  | (path, Node.file data) :: rest, a, fileCount =>
    rezipLoop rest (zipCreate a (Rel [] path) data) (fileCount + 1)

/-- The copy of `addPath` from the working tree into the scratch tree; `none` is
`copyErr != nil`. -/
def copyIntoScratch (fs : FS) (srcPath : Path) (info : Node) (addPath : Str) (scratch : FS) :
    Option FS :=
  match below addPath with
  | none => some scratch
  | some dst =>
    match info with
    | Node.dir => copyDirLoop srcPath dst ((srcPath, Node.dir) :: fs.descendants srcPath) scratch
    | Node.file data => ((MkdirAll scratch (Dir dst)).1).create dst data

/-- Model of `(*Zippy).patchVersion`: the new state and the messages printed. -/
def patchVersion (sizeOf : Archive → Int) (z : Zippy) (w : World) (version addPath : Str) :
    World × List Msg :=
  match w.records.lookup (Join z.versionsPath (version ++ ".json".toList)) with
  | none => (w, [Msg.patching version addPath, Msg.versionMetadataNotFound])
  | some none => (w, [Msg.patching version addPath, Msg.corruptVersionMetadata])
  | some (some v) =>
    match w.archives.lookup (osPath z.repoPath v.ZipPath) with
    | none => (w, [Msg.patching version addPath, Msg.errorOpeningZip])
    | some a =>
      match w.fs.stat (Join z.repoPath addPath) with
      | none => (w, [Msg.patching version addPath, Msg.fileToAddNotFound])
      | some info =>
        match copyIntoScratch w.fs (Join z.repoPath addPath) info addPath (extractLoop a []) with
        | none => (w, [Msg.patching version addPath, Msg.errorCopying])
        | some scratch =>
          if w.canWrite (osPath z.repoPath v.ZipPath) then
            let r := rezipLoop (scratch.descendants []) [] 0
            (saveVersionInfo z
                { w with archives := putKey w.archives (osPath z.repoPath v.ZipPath) r.1 }
                { v with Size := sizeOf r.1, FilesCount := r.2 },
              [Msg.patching version addPath, Msg.patchComplete])
          else (w, [Msg.patching version addPath, Msg.errorCreatingZip])

/-! ### `add`

The lines of `.zippyignore` are an argument of the commands that read the file:
`none` when the file cannot be opened, otherwise the lines that the
`bufio.Scanner` yields.  The decoded files (staged entries, records, archives)
are not listed in `fs`, so a walk visits the directories and the plain files. -/

/-- Model of `loadZippyIgnore`: the trimmed lines that are neither empty nor comments. -/
def loadZippyIgnore (lines : Option (List Str)) : List Str :=
  match lines with
  | none => []
  | some ls =>
    ls.filterMap (fun text =>
      if TrimSpace text ≠ [] ∧ HasPrefix (TrimSpace text) ['#'] = false
      then some (TrimSpace text) else none)

/-- The calls that `filepath.Walk(root, fn)` makes without error when no call prunes:
the root, then everything below it in lexical order.  When `root` does not exist
the only call carries an error, on which every callback of the program returns
at once. -/
def walkList (fs : FS) (root : Path) : List (Path × Node) :=
  match fs.stat root with
  | none => []
  | some (Node.file data) => [(root, Node.file data)]
  | some Node.dir => (root, Node.dir) :: fs.descendants root

/-- Model of the map write `staged[relPath] = struct{}{}` on a `map[string]struct{}`,
kept as the list of its keys. -/
def stagedSet (staged : List Str) (relPath : Str) : List Str :=
  if relPath ∈ staged then staged else staged ++ [relPath]

/-- The callback of the two walks of `addFiles`, applied to the paths of the walk in
turn.  `skipped` holds the directories for which the callback returned
`filepath.SkipDir`: nothing below them is visited. -/
def addWalk (z : Zippy) (zippyignore : List Str) :
    List (Path × Node) → List Path → List Str → List Msg → List Str × List Msg
  | [], _, staged, log => (staged, log)
  | (path, info) :: rest, skipped, staged, log =>
    if skipped.any (fun d => d.isPrefixOf path) then
      addWalk z zippyignore rest skipped staged log
    else if Rel z.repoPath path = ['.'] then
      addWalk z zippyignore rest skipped staged log
    else if shouldIgnore zippyignore (Rel z.repoPath path) then
      if info = Node.dir then addWalk z zippyignore rest (path :: skipped) staged log
      else addWalk z zippyignore rest skipped staged log
    else if info ≠ Node.dir then
      addWalk z zippyignore rest skipped (stagedSet staged (Rel z.repoPath path))
        (log ++ [Msg.added (Rel z.repoPath path)])
    else addWalk z zippyignore rest skipped staged log

/-- The loop of `addFiles` over explicitly given paths. -/
def addPaths (z : Zippy) (zippyignore : List Str) (fs : FS) :
    List Str → List Str → List Msg → List Str × List Msg
  | [], staged, log => (staged, log)
  | p :: rest, staged, log =>
    match fs.stat (Join z.repoPath p) with
    | none => addPaths z zippyignore fs rest staged (log ++ [Msg.notFound p])
    | some info =>
      if shouldIgnore zippyignore p then
        addPaths z zippyignore fs rest staged (log ++ [Msg.ignoredPath p])
      else
        match info with
        | Node.dir =>
          addPaths z zippyignore fs rest
            (addWalk z zippyignore (walkList fs (Join z.repoPath p)) [] staged log).1
            (addWalk z zippyignore (walkList fs (Join z.repoPath p)) [] staged log).2
        | Node.file _ =>
          addPaths z zippyignore fs rest (stagedSet staged p) (log ++ [Msg.added p])

/-- The staged set and the messages of `addFiles` before the set is persisted. -/
def resolveStaged (z : Zippy) (zippyignore : List Str) (fs : FS) (paths : List Str) :
    List Str × List Msg :=
  if paths = [['.']] then
    addWalk z zippyignore (walkList fs z.repoPath) [] [] [Msg.addingFiles]
  else addPaths z zippyignore fs paths [] [Msg.addingFiles]

/-- Model of `(*Zippy).addFiles`.  The keys of the map are collected and sorted with
`sort.Strings`; the staged-entry file is written only when the map is not empty,
and a failure of `os.WriteFile` goes unnoticed. -/
def addFiles (z : Zippy) (lines : Option (List Str)) (w : World) (paths : List Str) :
    World × List Msg :=
  let r := resolveStaged z (loadZippyIgnore lines) w.fs paths
  if r.1.length = 0 then (w, r.2 ++ [Msg.noFilesAdded])
  else if w.canWrite z.stagePath then
    ({ w with stage := some (r.1.insertionSort (· ≤ ·)) }, r.2)
  else (w, r.2)

/-! ### `status` -/

/-- The callback of the first walk of `status`: the paths that would be committed and
the ignored ones; an ignored directory is pruned. -/
def statusWalk (z : Zippy) (zippyignore : List Str) :
    List (Path × Node) → List Path → List Str → List Str → List Str × List Str
  | [], _, included, ignored => (included, ignored)
  | (path, info) :: rest, skipped, included, ignored =>
    if skipped.any (fun d => d.isPrefixOf path) then
      statusWalk z zippyignore rest skipped included ignored
    else if Rel z.repoPath path = ['.'] ∨ HasPrefix (Rel z.repoPath path) ".zippy".toList then
      statusWalk z zippyignore rest skipped included ignored
    else if shouldIgnore zippyignore (Rel z.repoPath path) then
      if info = Node.dir then
        statusWalk z zippyignore rest (path :: skipped) included
          (ignored ++ [Rel z.repoPath path])
      else statusWalk z zippyignore rest skipped included (ignored ++ [Rel z.repoPath path])
    else if info ≠ Node.dir then
      statusWalk z zippyignore rest skipped (included ++ [Rel z.repoPath path]) ignored
    else statusWalk z zippyignore rest skipped included ignored

/-- The callback of the second walk of `status`, which fills `currentFiles` with the
checksum of every regular file that is not ignored; it never prunes. -/
def currentFilesWalk (z : Zippy) (zippyignore : List Str) : List (Path × Node) → FMap → FMap
  | [], currentFiles => currentFiles
  | (path, info) :: rest, currentFiles =>
    if Rel z.repoPath path = ['.'] ∨ HasPrefix (Rel z.repoPath path) ".zippy".toList then
      currentFilesWalk z zippyignore rest currentFiles
    else if shouldIgnore zippyignore (Rel z.repoPath path) = true ∨ info = Node.dir then
      currentFilesWalk z zippyignore rest currentFiles
    else
      match info with
      | Node.dir => currentFilesWalk z zippyignore rest currentFiles
      | Node.file data =>
        currentFilesWalk z zippyignore rest (currentFiles.set (Rel z.repoPath path) (crc32 data))

/-- Model of `os.ReadDir(versionsPath)`: the names in the directory, sorted; `none` when
it is not a directory.  The names are those of the subdirectories and plain files
listed in `fs` and of the record files. -/
def readVersionsDir (z : Zippy) (w : World) : Option (List Str) :=
  match w.fs.stat z.versionsPath with
  | some Node.dir =>
    some ((((w.fs.map Prod.fst ++ w.records.map Prod.fst).filter
        (fun p => p != [] && Dir p == z.versionsPath)).map
        (fun p => p.getLastD [])).dedup.insertionSort (· ≤ ·))
  | _ => none

/-- The instant `time.Time{}`; a `Timestamp` counts from it. -/
def zeroTime : Int := 0

/-- The loop of `status` that finds the latest version among the entries of the versions
directory.  The state is `latestFile` and `latestTime`.  A `.json` file that is
not among the decoded records does not parse. -/
def latestLoop (z : Zippy) (w : World) : List Str → Str × Int → Str × Int
  | [], latest => latest
  | name :: rest, latest =>
    if w.fs.stat (Join z.versionsPath name) = some Node.dir ∨
        HasSuffix name ".json".toList = false then
      latestLoop z w rest latest
    else
      match w.records.lookup (Join z.versionsPath name) with
      | some (some v) =>
        if v.Timestamp > latest.2 then latestLoop z w rest (name, v.Timestamp)
        else latestLoop z w rest latest
      | _ => latestLoop z w rest latest

/-- The name of the record file that `status` takes for the latest version; empty when
it finds none. -/
def latestFile (z : Zippy) (w : World) (files : List Str) : Str :=
  (latestLoop z w files ([], zeroTime)).1

/-- The report of `status` on a comparison with the latest version. -/
def statusReport (r : DiffResult) : List Msg :=
  Msg.comparedToLatest :: (r.added.map Msg.newFile ++ r.removed.map Msg.deletedFile ++
    r.changed.map Msg.modifiedFile ++
    (if r.added.length = 0 ∧ r.removed.length = 0 ∧ r.changed.length = 0
     then [Msg.noChanges] else []))

/-- The part of `status` that compares the working tree with the latest version
(source lines 822-912).  The two comparison loops are those of `diff`, with
`versionFiles` in the place of `files1` and `currentFiles` in the place of
`files2`. -/
def statusCompare (z : Zippy) (zippyignore : List Str) (w : World) : List Msg :=
  match readVersionsDir z w with
  | none => []
  | some files =>
    if files.length > 0 ∧ latestFile z w files ≠ [] then
      match w.records.lookup (Join z.versionsPath (latestFile z w files)) with
      | some (some v) =>
        match w.archives.lookup (osPath z.repoPath v.ZipPath) with
        | none => []
        | some a =>
          statusReport (diffMaps (readZipEntries [] a)
            (currentFilesWalk z zippyignore (walkList w.fs z.repoPath) []))
      | _ => []
    else []

/-- The lists that `status` prints first. -/
def statusLists (r : List Str × List Str) : List Msg :=
  Msg.statusHeader ::
    ((if r.1.length = 0 then [Msg.noneToBeCommitted] else r.1.map Msg.toBeCommitted) ++
     (if r.2.length = 0 then [Msg.noneIgnored] else r.2.map Msg.ignoredFile))

/-- Model of `(*Zippy).status`: the messages printed. -/
def status (z : Zippy) (lines : Option (List Str)) (w : World) : List Msg :=
  statusLists (statusWalk z (loadZippyIgnore lines) (walkList w.fs z.repoPath) [] [] []) ++
    statusCompare z (loadZippyIgnore lines) w

/-! ## Vocabulary of the statements -/

/-- Following the specification of `restore`: an archive entry is selected by the
filter `f` when its slash-normalised name equals `f` or starts with `f` followed
by `/`. -/
def selectedBy (f : Str) (e : ZipEntry) : Bool :=
  ToSlash e.Name == f || HasPrefix (ToSlash e.Name) (f ++ ['/'])

/-- The names of the entries that a run of `restore` reports as written. -/
def restoredNames (log : List Msg) : List Str :=
  log.filterMap (fun m => match m with
    | Msg.restored n => some n
    | _ => none)

/-- The names of the entries that a run of `restore` tried to write: those reported
as written and those reported as failed. -/
def attemptedNames (log : List Msg) : List Str :=
  log.filterMap (fun m => match m with
    | Msg.restored n => some n
    | Msg.errorRestoring n => some n
    | _ => none)

/-- The names of the file entries of an archive (those that are not directories). -/
def fileNames (a : Archive) : List Str :=
  (a.filter (fun e => !e.IsDir)).map ZipEntry.Name

/-- The test by which the loop of `restore` lets an entry through: there is no
filter, or the filter selects the entry. -/
def passes (f : Str) (e : ZipEntry) : Bool := f == [] || selectedBy f e

/-- Can `os.OpenFile(p, O_WRONLY|O_CREATE|O_TRUNC, mode)` open `p` in the tree `fs`: the
parent of `p` is a directory and `p` itself is not one. -/
def canOpen (fs : FS) (p : Path) : Bool :=
  p != [] && fs.stat (Dir p) == some Node.dir && fs.stat p != some Node.dir

/-- The state of the loop of `restore` (the tree, the flag `restored` and the messages)
once it has gone through the entries `pre` of the archive, started as `restore`
starts it. -/
def restoreAfter (z : Zippy) (w : World) (version f : Str) (pre : Archive) :
    FS × Bool × List Msg :=
  restoreLoop z (ToSlash f) pre w.fs false [Msg.restoring version f]

/-- The place of the file entry `e` in the scratch directory is a prefix of the place
of `e'`, other than by `e'` being a file entry at the same place. -/
def clashes (e e' : ZipEntry) : Bool :=
  match below e.Name, below e'.Name with
  | some q, some q' => q.isPrefixOf q' && !(q' == q && !e'.IsDir)
  | _, _ => false

/-- An archive that `patchVersion` unpacks without loss: every file entry has a cleaned
relative name, and its place is a prefix of the place of another entry only when
that entry is a file entry at the same place. -/
def extractable (a : Archive) : Bool :=
  a.all (fun e => e.IsDir || (isCleanRel e.Name && a.all (fun e' => !clashes e e')))

/-- The archive entry that the walk of `patchVersion` writes for a path of the scratch
tree: none for a directory. -/
def scratchEntry (kv : Path × Node) : Option ZipEntry :=
  match kv.2 with
  | Node.dir => none
  | Node.file data =>
    some { Name := Rel [] kv.1, data := if HasSuffix (Rel [] kv.1) ['/'] then [] else data,
           dirAttr := false }

/-- Every regular file of the scratch tree `s` is the place of a file entry of `a` and
holds the contents of that entry. -/
def FilesFrom (a : Archive) (s : FS) : Prop :=
  ∀ p d, s.stat p = some (Node.file d) →
    ∃ e ∈ a, e.IsDir = false ∧ below e.Name = some p ∧ e.data = d

/-- Every directory of the scratch tree `s` lies on the way to the place of an entry of
`a`, and strictly above it when that entry is a file entry. -/
def DirsFrom (a : Archive) (s : FS) : Prop :=
  ∀ p, p ≠ [] → s.stat p = some Node.dir →
    ∃ e ∈ a, ∃ p', below e.Name = some p' ∧ p <+: p' ∧ (e.IsDir = false → p ≠ p')

/-- The names that a run of `addFiles` reports as added. -/
def addedNames (log : List Msg) : List Str :=
  log.filterMap (fun m => match m with
    | Msg.added n => some n
    | _ => none)

/-- The record files that the latest-version loop of `status` takes into account, in the
order of the directory listing: the `.json` files that parse, each with its
record. -/
def candidates (z : Zippy) (w : World) (files : List Str) : List (Str × Version) :=
  files.filterMap (fun name =>
    if w.fs.stat (Join z.versionsPath name) = some Node.dir ∨
        HasSuffix name ".json".toList = false then none
    else match w.records.lookup (Join z.versionsPath name) with
      | some (some v) => some (name, v)
      | _ => none)

/-- The latest-version loop of `status` on the record files that it takes into
account. -/
def pickLatest : List (Str × Version) → Str × Int → Str × Int
  | [], latest => latest
  | c :: rest, latest =>
    if c.2.Timestamp > latest.2 then pickLatest rest (c.1, c.2.Timestamp)
    else pickLatest rest latest

/-- The staged map and the messages of `addFiles` agree: the map holds each name once,
and holds exactly the names reported as added. -/
def StagedMatches (staged : List Str) (log : List Msg) : Prop :=
  staged.Nodup ∧ ∀ n, n ∈ staged ↔ n ∈ addedNames log

/-! ## Sample states

A repository at `/repo` with one version `v1`, used to evaluate the commands. -/

/-- The paths of the repository at `/repo`. -/
def sampleZippy : Zippy := initPaths ["repo".toList]

/-- The directories of an initialised repository at `/repo`. -/
def sampleDirs : FS :=
  [(["repo".toList], Node.dir),
   (["repo".toList, ".zippy".toList], Node.dir),
   (["repo".toList, ".zippy".toList, "versions".toList], Node.dir),
   (["repo".toList, ".zippy".toList, "storage".toList], Node.dir)]

/-- The archive of version `v1`: `a.txt` and `b.txt`. -/
def sampleArchive : Archive :=
  [⟨"a.txt".toList, [97], false⟩, ⟨"b.txt".toList, [98], false⟩]

/-- The record of version `v1`. -/
def sampleVersion : Version :=
  { Tag := "v1".toList, Message := "first".toList, Timestamp := 1000, Author := "User".toList,
    FilesCount := 2, ZipPath := "/repo/.zippy/storage/v1.zip".toList, Size := 300 }

/-- A state with version `v1`, whose archive is `a`, and the working tree `files`
below `/repo`. -/
def sampleWorldWith (a : Archive) (files : FS) (stage : Option (List Str)) : World :=
  { fs := sampleDirs ++ files
    stage := stage
    records := [(["repo".toList, ".zippy".toList, "versions".toList, "v1.json".toList],
      some sampleVersion)]
    archives := [(["repo".toList, ".zippy".toList, "storage".toList, "v1.zip".toList], a)] }

/-- A state with version `v1` (`a.txt` and `b.txt`) and the working tree `files` below
`/repo`. -/
def sampleWorld (files : FS) (stage : Option (List Str)) : World :=
  sampleWorldWith sampleArchive files stage

/-- A stand-in for the size of the file that holds an archive. -/
def sampleSize (a : Archive) : Int := 100 + 100 * a.length

/-- The working tree of the sample repository after `init`: the directories and the
plain file `.zippy/config.json`, with `files` below `/repo`. -/
def initialisedTree (files : FS) : FS :=
  sampleDirs ++ [(["repo".toList, ".zippy".toList, "config.json".toList], Node.file [123, 125])]
    ++ files

/-- A state of the sample repository with the record files `records`, all of them for
the archive of `v1`, which is `a`. -/
def sampleWorldRecords (records : List (Str × Option Version)) (a : Archive) (files : FS) :
    World :=
  { fs := initialisedTree files
    stage := none
    records := records.map (fun r =>
      (["repo".toList, ".zippy".toList, "versions".toList, r.1], r.2))
    archives := [(["repo".toList, ".zippy".toList, "storage".toList, "v1.zip".toList], a)] }

/-! ## Fingerprint maps: lemmas -/

theorem FMap.get_eq_none_iff (m : FMap) (k : Str) : m.get k = none ↔ k ∉ m.keys := by
  induction m with
  | nil => simp [FMap.get, FMap.keys]
  | cons kv m ih =>
    obtain ⟨k', v⟩ := kv
    simp only [FMap.get, FMap.keys] at ih ⊢
    by_cases h : k = k'
    · subst h; simp [List.lookup]
    · have h' : (k == k') = false := by simpa using h
      simp [List.lookup, h', ih, h]

theorem diffLoopNew_added_sublist (A B : FMap) : (diffLoopNew A B).1.Sublist B.keys := by
  induction B with
  | nil => simp [diffLoopNew, FMap.keys]
  | cons kv B ih =>
    obtain ⟨k, v⟩ := kv
    simp only [diffLoopNew, FMap.keys, List.map_cons] at ih ⊢
    split
    · exact ih.cons₂ _
    · split
      · exact ih.cons _
      · exact ih.cons _

theorem diffLoopNew_changed_sublist (A B : FMap) : (diffLoopNew A B).2.Sublist B.keys := by
  induction B with
  | nil => simp [diffLoopNew, FMap.keys]
  | cons kv B ih =>
    obtain ⟨k, v⟩ := kv
    simp only [diffLoopNew, FMap.keys, List.map_cons] at ih ⊢
    split
    · exact ih.cons _
    · split
      · exact ih.cons₂ _
      · exact ih.cons _

theorem diffLoopOld_sublist (B A : FMap) : (diffLoopOld B A).Sublist A.keys := by
  induction A with
  | nil => simp [diffLoopOld, FMap.keys]
  | cons kv A ih =>
    obtain ⟨k, v⟩ := kv
    simp only [diffLoopOld, FMap.keys, List.map_cons] at ih ⊢
    split
    · exact ih.cons₂ _
    · exact ih.cons _

theorem mem_diffLoopNew_added (A B : FMap) (p : Str) :
    p ∈ (diffLoopNew A B).1 ↔ p ∈ B.keys ∧ A.get p = none := by
  induction B with
  | nil => simp [diffLoopNew, FMap.keys]
  | cons kv B ih =>
    obtain ⟨k, v⟩ := kv
    simp only [diffLoopNew, FMap.keys, List.map_cons, List.mem_cons] at ih ⊢
    split
    · rename_i h
      simp only [List.mem_cons, ih]
      constructor
      · rintro (rfl | ⟨h1, h2⟩)
        · exact ⟨Or.inl rfl, h⟩
        · exact ⟨Or.inr h1, h2⟩
      · rintro ⟨rfl | h1, h2⟩
        · exact Or.inl rfl
        · exact Or.inr ⟨h1, h2⟩
    · rename_i c h
      have key : p ∈ (diffLoopNew A B).1 ↔ (p = k ∨ p ∈ List.map Prod.fst B) ∧ A.get p = none := by
        rw [ih]
        constructor
        · rintro ⟨h1, h2⟩; exact ⟨Or.inr h1, h2⟩
        · rintro ⟨rfl | h1, h2⟩
          · rw [h] at h2; cases h2
          · exact ⟨h1, h2⟩
      split <;> exact key

theorem mem_diffLoopNew_changed (A B : FMap) (hB : B.keys.Nodup) (p : Str) :
    p ∈ (diffLoopNew A B).2 ↔
      ∃ a b, A.get p = some a ∧ B.get p = some b ∧ a ≠ b := by
  induction B with
  | nil => simp [diffLoopNew, FMap.get]
  | cons kv B ih =>
    obtain ⟨k, v⟩ := kv
    simp only [FMap.keys, List.map_cons, List.nodup_cons] at hB
    have ih := ih hB.2
    have hget : ∀ q, q ≠ k → FMap.get ((k, v) :: B) q = FMap.get B q := by
      intro q hq
      have h' : (q == k) = false := by simpa using hq
      simp [FMap.get, List.lookup, h']
    have hgetk : FMap.get ((k, v) :: B) k = some v := by simp [FMap.get, List.lookup]
    have hBk : FMap.get B k = none := (FMap.get_eq_none_iff B k).2 hB.1
    by_cases hp : p = k
    · subst hp
      have hnot : p ∉ (diffLoopNew A B).2 := by
        rw [ih]; rintro ⟨a, b, _, h2, _⟩; rw [hBk] at h2; cases h2
      simp only [diffLoopNew]
      split
      · rename_i h
        simp only [hnot, false_iff]
        rintro ⟨a, b, h1, _, _⟩; rw [h] at h1; cases h1
      · rename_i c h
        split
        · rename_i hne
          simp only [List.mem_cons, true_or, true_iff]
          exact ⟨c, v, h, hgetk, hne⟩
        · rename_i hne
          simp only [hnot, false_iff]
          rintro ⟨a, b, h1, h2, h3⟩
          rw [h] at h1; rw [hgetk] at h2
          cases h1; cases h2; exact hne h3
    · have key : p ∈ (diffLoopNew A B).2 ↔
          ∃ a b, A.get p = some a ∧ FMap.get ((k, v) :: B) p = some b ∧ a ≠ b := by
        rw [ih, hget p hp]
      simp only [diffLoopNew]
      split
      · exact key
      · split
        · simp only [List.mem_cons, hp, false_or]; exact key
        · exact key

theorem mem_diffLoopOld (B A : FMap) (p : Str) :
    p ∈ diffLoopOld B A ↔ p ∈ A.keys ∧ B.get p = none := by
  induction A with
  | nil => simp [diffLoopOld, FMap.keys]
  | cons kv A ih =>
    obtain ⟨k, v⟩ := kv
    simp only [diffLoopOld, FMap.keys, List.map_cons, List.mem_cons] at ih ⊢
    split
    · rename_i h
      simp only [List.mem_cons, ih]
      constructor
      · rintro (rfl | ⟨h1, h2⟩)
        · exact ⟨Or.inl rfl, h⟩
        · exact ⟨Or.inr h1, h2⟩
      · rintro ⟨rfl | h1, h2⟩
        · exact Or.inl rfl
        · exact Or.inr ⟨h1, h2⟩
    · rename_i c h
      rw [ih]
      constructor
      · rintro ⟨h1, h2⟩; exact ⟨Or.inr h1, h2⟩
      · rintro ⟨rfl | h1, h2⟩
        · rw [h] at h2; cases h2
        · exact ⟨h1, h2⟩


theorem FMap.keys_set (m : FMap) (k : Str) (v : Nat) :
    (m.set k v).keys = if k ∈ m.keys then m.keys else m.keys ++ [k] := by
  induction m with
  | nil => simp [FMap.set, FMap.keys]
  | cons kv m ih =>
    obtain ⟨k', v'⟩ := kv
    simp only [FMap.keys, List.map_cons, List.mem_cons] at ih ⊢
    by_cases h : k' = k
    · subst h; simp [FMap.set]
    · have h2 : ¬ k = k' := fun e => h e.symm
      simp only [FMap.set, h, if_false, List.map_cons, ih, h2, false_or]
      split <;> simp

theorem FMap.nodup_keys_set (m : FMap) (k : Str) (v : Nat) (h : m.keys.Nodup) :
    (m.set k v).keys.Nodup := by
  rw [FMap.keys_set]
  split
  · exact h
  · rename_i hk
    exact List.Nodup.append h (List.nodup_singleton k) (by
      intro a ha hb
      simp only [List.mem_singleton] at hb
      exact hk (hb ▸ ha))

/-- The map that `readZip` builds never holds a name twice. -/
theorem readZipEntries_nodup (a : Archive) (files : FMap) (h : files.keys.Nodup) :
    (readZipEntries files a).keys.Nodup := by
  induction a generalizing files with
  | nil => simpa [readZipEntries] using h
  | cons f rest ih =>
    simp only [readZipEntries]
    split
    · exact ih _ (FMap.nodup_keys_set _ _ _ h)
    · exact ih _ h

/-! ## C1: the comparison of `diff` -/

/-- C1: for two fingerprint maps `A` (first version) and `B` (second version), `diff`
reports as added exactly the keys of `B` that are not keys of `A`, as removed
exactly the keys of `A` that are not keys of `B`, and as changed exactly the keys of
both whose fingerprints differ; the three lists together hold no path twice. -/
theorem diffMaps_exact (A B : FMap) (hA : A.keys.Nodup) (hB : B.keys.Nodup) :
    (∀ p, p ∈ (diffMaps A B).added ↔ p ∈ B.keys ∧ p ∉ A.keys) ∧
    (∀ p, p ∈ (diffMaps A B).removed ↔ p ∈ A.keys ∧ p ∉ B.keys) ∧
    (∀ p, p ∈ (diffMaps A B).changed ↔ p ∈ A.keys ∧ p ∈ B.keys ∧ A.get p ≠ B.get p) ∧
    ((diffMaps A B).added ++ (diffMaps A B).removed ++ (diffMaps A B).changed).Nodup := by
  have hadd : ∀ p, p ∈ (diffMaps A B).added ↔ p ∈ B.keys ∧ p ∉ A.keys := by
    intro p
    simp only [diffMaps, mem_diffLoopNew_added, FMap.get_eq_none_iff]
  have hrem : ∀ p, p ∈ (diffMaps A B).removed ↔ p ∈ A.keys ∧ p ∉ B.keys := by
    intro p
    simp only [diffMaps, mem_diffLoopOld, FMap.get_eq_none_iff]
  have hchg : ∀ p, p ∈ (diffMaps A B).changed ↔
      p ∈ A.keys ∧ p ∈ B.keys ∧ A.get p ≠ B.get p := by
    intro p
    simp only [diffMaps, mem_diffLoopNew_changed A B hB]
    constructor
    · rintro ⟨a, b, h1, h2, h3⟩
      refine ⟨?_, ?_, ?_⟩
      · by_contra hc
        rw [(FMap.get_eq_none_iff A p).2 hc] at h1; cases h1
      · by_contra hc
        rw [(FMap.get_eq_none_iff B p).2 hc] at h2; cases h2
      · rw [h1, h2]; intro e; exact h3 (Option.some.inj e)
    · rintro ⟨h1, h2, h3⟩
      cases ha : A.get p with
      | none => exact absurd h1 ((FMap.get_eq_none_iff A p).1 ha)
      | some a =>
        cases hb : B.get p with
        | none => exact absurd h2 ((FMap.get_eq_none_iff B p).1 hb)
        | some b =>
          refine ⟨a, b, rfl, rfl, ?_⟩
          intro e; apply h3; rw [ha, hb, e]
  refine ⟨hadd, hrem, hchg, ?_⟩
  have nadd : (diffMaps A B).added.Nodup := (diffLoopNew_added_sublist A B).nodup hB
  have nrem : (diffMaps A B).removed.Nodup := (diffLoopOld_sublist B A).nodup hA
  have nchg : (diffMaps A B).changed.Nodup := (diffLoopNew_changed_sublist A B).nodup hB
  rw [List.nodup_append, List.nodup_append]
  refine ⟨⟨nadd, nrem, ?_⟩, nchg, ?_⟩
  · intro p h1 h2
    exact ((hadd p).1 h1).2 ((hrem p).1 h2).1
  · intro p h1 h2
    rcases List.mem_append.1 h1 with h | h
    · exact ((hadd p).1 h).2 ((hchg p).1 h2).1
    · exact ((hrem p).1 h).2 ((hchg p).1 h2).2.1

/-- Witness for C1: versions `{a.txt ↦ 1, b.txt ↦ 2}` and `{b.txt ↦ 3, c.txt ↦ 4}`. -/
theorem diffMaps_exact_witness :
    (diffMaps [("a.txt".toList, 1), ("b.txt".toList, 2)]
        [("b.txt".toList, 3), ("c.txt".toList, 4)]).added = ["c.txt".toList] ∧
    ((diffMaps [("a.txt".toList, 1), ("b.txt".toList, 2)]
        [("b.txt".toList, 3), ("c.txt".toList, 4)]).added ++
      (diffMaps [("a.txt".toList, 1), ("b.txt".toList, 2)]
        [("b.txt".toList, 3), ("c.txt".toList, 4)]).removed ++
      (diffMaps [("a.txt".toList, 1), ("b.txt".toList, 2)]
        [("b.txt".toList, 3), ("c.txt".toList, 4)]).changed).Nodup :=
  ⟨by decide,
   (diffMaps_exact [("a.txt".toList, 1), ("b.txt".toList, 2)]
      [("b.txt".toList, 3), ("c.txt".toList, 4)] (by decide) (by decide)).2.2.2⟩

/-! ## `filepath.Match`: the fuel is never exhausted

The loops of `Match` are modelled with a fuel argument.  With at least as much fuel
as the length of the text still to be scanned plus one, the result does not
depend on the amount of fuel: the branch for exhausted fuel is not reached. -/

theorem getEsc_length (chunk : Str) (c : Char) (rest : Str) (h : getEsc chunk = some (c, rest)) :
    rest.length < chunk.length := by
  unfold getEsc at h
  split at h
  · cases h
  · rename_i c0 cs
    split at h
    · cases h
    · split at h
      · split at h
        · cases h
        · rename_i r n
          split at h
          · cases h
          · cases h; simp; omega
      · split at h
        · cases h
        · cases h; simp

theorem classLoop_fuel (fuel1 : Nat) :
    ∀ (fuel2 : Nat) (chunk : Str) (r : Char) (m : Bool) (n : Nat),
      chunk.length < fuel1 → chunk.length < fuel2 →
      classLoop fuel1 chunk r m n = classLoop fuel2 chunk r m n := by
  induction fuel1 with
  | zero => intro fuel2 chunk r m n h; omega
  | succ k ih =>
    intro fuel2 chunk r m n h1 h2
    cases fuel2 with
    | zero => omega
    | succ j =>
      unfold classLoop
      split
      · rfl
      · cases hg : getEsc chunk with
        | none => rfl
        | some lr =>
          obtain ⟨lo, chunk1⟩ := lr
          have hl1 := getEsc_length chunk lo chunk1 hg
          simp only
          split
          · rename_i cs
            cases hg2 : getEsc cs with
            | none => rfl
            | some hr =>
              obtain ⟨hi, chunk2⟩ := hr
              have hl2 := getEsc_length cs hi chunk2 hg2
              simp only [List.length_cons] at hl1
              simp only
              exact ih j chunk2 r _ _ (by omega) (by omega)
          · exact ih j chunk1 r _ _ (by omega) (by omega)

theorem classLoop_length (fuel : Nat) :
    ∀ (chunk : Str) (r : Char) (m : Bool) (n : Nat) (b : Bool) (rest : Str),
      classLoop fuel chunk r m n = some (b, rest) → rest.length < chunk.length := by
  induction fuel with
  | zero => intro chunk r m n b rest h; simp [classLoop] at h
  | succ k ih =>
    intro chunk r m n b rest h
    unfold classLoop at h
    split at h
    · split at h
      · cases h; simp
      · cases h
    · cases hg : getEsc chunk with
      | none => rw [hg] at h; cases h
      | some lr =>
        obtain ⟨lo, chunk1⟩ := lr
        have hl1 := getEsc_length chunk lo chunk1 hg
        rw [hg] at h
        simp only at h
        split at h
        · rename_i cs
          cases hg2 : getEsc cs with
          | none => rw [hg2] at h; cases h
          | some hr =>
            obtain ⟨hi, chunk2⟩ := hr
            have hl2 := getEsc_length cs hi chunk2 hg2
            rw [hg2] at h
            simp only [List.length_cons] at hl1
            have := ih _ _ _ _ _ _ h
            omega
        · have := ih _ _ _ _ _ _ h
          omega

theorem matchChunkLoop_fuel (fuel1 : Nat) :
    ∀ (fuel2 : Nat) (chunk s : Str) (failed : Bool),
      chunk.length < fuel1 → chunk.length < fuel2 →
      matchChunkLoop fuel1 chunk s failed = matchChunkLoop fuel2 chunk s failed := by
  induction fuel1 with
  | zero => intro fuel2 chunk s failed h; omega
  | succ k ih =>
    intro fuel2 chunk s failed h1 h2
    cases fuel2 with
    | zero => omega
    | succ j =>
      cases chunk with
      | nil => simp [matchChunkLoop]
      | cons c cs =>
        simp only [List.length_cons] at h1 h2
        simp only [matchChunkLoop]
        split
        · generalize hcl : classLoop _ _ _ false 0 = cl
          cases cl with
          | none => rfl
          | some br =>
            obtain ⟨b, rest⟩ := br
            have hlen := classLoop_length _ _ _ _ _ _ _ hcl
            have hcs : ∀ c : Bool, (if c = true then cs.tail else cs).length ≤ cs.length := by
              intro c
              split
              · simp
              · exact le_refl _
            have hle : rest.length < cs.length := Nat.lt_of_lt_of_le hlen (hcs _)
            simp only
            exact ih j rest _ _ (by omega) (by omega)
        · split
          · split
            · exact ih j cs _ _ (by omega) (by omega)
            · exact ih j cs _ _ (by omega) (by omega)
          · split
            · cases cs with
              | nil => rfl
              | cons d ds =>
                simp only [List.length_cons] at h1 h2
                simp only
                split
                · exact ih j ds _ _ (by omega) (by omega)
                · exact ih j ds _ _ (by omega) (by omega)
            · split
              · exact ih j cs _ _ (by omega) (by omega)
              · exact ih j cs _ _ (by omega) (by omega)

theorem scanLoop_length (n : Nat) :
    ∀ (p : Str) (b : Bool), p.length ≤ n → (scanLoop b p).2.length ≤ p.length := by
  induction n with
  | zero =>
    intro p b h
    cases p with
    | nil => simp [scanLoop]
    | cons c cs => simp at h
  | succ n ih =>
    intro p b h
    cases p with
    | nil => simp [scanLoop]
    | cons c cs =>
      simp only [List.length_cons] at h
      have hcs := ih cs
      unfold scanLoop
      split
      · split
        · simp
        · rename_i d ds
          simp only [List.length_cons] at h ⊢
          have := ih ds b (by omega)
          omega
      · split
        · have := hcs true (by omega); simp only [List.length_cons]; omega
        · split
          · have := hcs false (by omega); simp only [List.length_cons]; omega
          · split
            · split
              · simp
              · have := hcs b (by omega); simp only [List.length_cons]; omega
            · have := hcs b (by omega); simp only [List.length_cons]; omega

theorem scanLoop_consumes (c : Char) (cs : Str) (hc : c ≠ '*') :
    (scanLoop false (c :: cs)).2.length ≤ cs.length := by
  unfold scanLoop
  split
  · split
    · simp
    · rename_i d ds
      have := scanLoop_length ds.length ds false (le_refl _)
      simp only [List.length_cons]
      omega
  · split
    · exact scanLoop_length _ cs true (le_refl _)
    · split
      · exact scanLoop_length _ cs false (le_refl _)
      · exact scanLoop_length _ cs false (le_refl _)

theorem scanChunk_length (pattern : Str) (h : pattern ≠ []) :
    (scanChunk pattern).2.2.length < pattern.length := by
  cases pattern with
  | nil => exact absurd rfl h
  | cons c cs =>
    simp only [scanChunk, List.length_cons]
    by_cases hc : c = '*'
    · subst hc
      have h1 : List.dropWhile (fun c => c == '*') ('*' :: cs) =
          List.dropWhile (fun c => c == '*') cs := by
        simp [List.dropWhile]
      rw [h1]
      have h2 := scanLoop_length _ (List.dropWhile (fun c => c == '*') cs) false (le_refl _)
      have h3 : (List.dropWhile (fun c => c == '*') cs).length ≤ cs.length :=
        (List.dropWhile_sublist _).length_le
      omega
    · have hb : (c == '*') = false := by simpa using hc
      have h1 : List.dropWhile (fun c => c == '*') (c :: cs) = c :: cs := by
        simp [List.dropWhile, hb]
      rw [h1]
      have := scanLoop_consumes c cs hc
      omega

theorem restValid_fuel (fuel1 : Nat) :
    ∀ (fuel2 : Nat) (pattern : Str), pattern.length < fuel1 → pattern.length < fuel2 →
      restValid fuel1 pattern = restValid fuel2 pattern := by
  induction fuel1 with
  | zero => intro fuel2 pattern h; omega
  | succ k ih =>
    intro fuel2 pattern h1 h2
    cases fuel2 with
    | zero => omega
    | succ j =>
      simp only [restValid]
      split
      · rfl
      · rename_i hne
        have hlen := scanChunk_length pattern hne
        split
        · rfl
        · exact ih j _ (by omega) (by omega)

theorem matchLoop_fuel (fuel1 : Nat) :
    ∀ (fuel2 : Nat) (pattern name : Str), pattern.length < fuel1 → pattern.length < fuel2 →
      matchLoop fuel1 pattern name = matchLoop fuel2 pattern name := by
  induction fuel1 with
  | zero => intro fuel2 pattern name h; omega
  | succ k ih =>
    intro fuel2 pattern name h1 h2
    cases fuel2 with
    | zero => omega
    | succ j =>
      simp only [matchLoop]
      split
      · rfl
      · rename_i hne
        have hlen := scanChunk_length pattern hne
        have hrec : ∀ t, matchLoop k (scanChunk pattern).2.2 t =
            matchLoop j (scanChunk pattern).2.2 t :=
          fun t => ih j _ t (by omega) (by omega)
        simp only [hrec]

/-- The fuel that `Match` and `matchChunk` supply is enough: more fuel gives the same
result, so the branches for exhausted fuel play no part. -/
theorem Match_fuel (pattern name chunk s : Str) (k : Nat) :
    matchLoop (pattern.length + 1 + k) pattern name = Match pattern name ∧
    matchChunkLoop (chunk.length + 1 + k) chunk s false = matchChunk chunk s ∧
    restValid (pattern.length + 1 + k) pattern = restValid (pattern.length + 1) pattern :=
  ⟨matchLoop_fuel _ _ pattern name (by omega) (by omega),
   matchChunkLoop_fuel _ _ chunk s false (by omega) (by omega),
   restValid_fuel _ _ pattern (by omega) (by omega)⟩

/-! ## The ignore matcher: lemmas -/

theorem ToSlash_eq (s : Str) : ToSlash s = s := by
  simp [ToSlash, Separator]

theorem shouldIgnoreLoop_cons (fp g : Str) (rest : List Str) :
    shouldIgnoreLoop fp (g :: rest) = (shouldIgnoreLoop fp [g] || shouldIgnoreLoop fp rest) := by
  simp only [shouldIgnoreLoop]
  split
  · simp
  · split
    · split <;> simp
    · split
      · simp
      · split <;> simp

theorem shouldIgnoreLoop_eq_any (fp : Str) (P : List Str) :
    shouldIgnoreLoop fp P = P.any (fun g => shouldIgnoreLoop fp [g]) := by
  induction P with
  | nil => simp [shouldIgnoreLoop]
  | cons g rest ih => rw [shouldIgnoreLoop_cons, ih, List.any_cons]

theorem any_perm {α : Type} (f : α → Bool) {l₁ l₂ : List α} (h : l₁.Perm l₂) :
    l₁.any f = l₂.any f := by
  induction h with
  | nil => rfl
  | cons x _ ih => simp [List.any_cons, ih]
  | swap x y l => simp only [List.any_cons]; cases f x <;> cases f y <;> rfl
  | trans _ _ ih1 ih2 => exact ih1.trans ih2

theorem HasSuffix_iff (s suf : Str) : HasSuffix s suf = true ↔ suf <:+ s := by
  simp [HasSuffix, List.reverse_prefix]

theorem shouldIgnore_single (p g : Str) :
    shouldIgnore [g] p =
      (if TrimSpace g = [] then false
       else if HasSuffix (ToSlash (TrimSpace g)) ['/'] then
         HasPrefix (ToSlash p) (ToSlash (TrimSpace g))
       else if Match (ToSlash (TrimSpace g)) (ToSlash p) = some true then true
       else if Match (ToSlash (TrimSpace g)) (Base (ToSlash p)) = some true then true
       else false) := by
  simp only [shouldIgnore, shouldIgnoreLoop]
  split
  · rfl
  · split
    · split <;> simp_all
    · rfl

/-! ## The patterns that `loadZippyIgnore` gives -/

theorem TrimSpace_idem (s : Str) : TrimSpace (TrimSpace s) = TrimSpace s := by
  have hr : ∀ t : Str, trimRight t = t.rdropWhile isSpace := fun _ => rfl
  have hhead : (TrimSpace s).dropWhile isSpace = TrimSpace s := by
    rw [List.dropWhile_eq_self_iff]
    intro hl
    have hpre : TrimSpace s <+: s.dropWhile isSpace := by
      unfold TrimSpace; rw [hr]; exact ( List.rdropWhile_prefix _ _)
    obtain ⟨t, ht⟩ := hpre
    have hself : (s.dropWhile isSpace).dropWhile isSpace = s.dropWhile isSpace :=
      List.dropWhile_idempotent _ _
    rw [List.dropWhile_eq_self_iff] at hself
    have hl2 : 0 < (s.dropWhile isSpace).length := by
      rw [← ht, List.length_append]; omega
    have h2 := hself hl2
    have hget : (s.dropWhile isSpace).get ⟨0, hl2⟩ = (TrimSpace s).get ⟨0, hl⟩ := by
      simp only [List.get_eq_getElem]
      simp only [← ht]
      rw [List.getElem_append_left]
    rw [← hget]; exact h2
  calc TrimSpace (TrimSpace s)
      = trimRight ((TrimSpace s).dropWhile isSpace) := rfl
    _ = trimRight (TrimSpace s) := by rw [hhead]
    _ = TrimSpace s := by
        unfold TrimSpace
        rw [hr, hr]
        exact List.rdropWhile_idempotent _ _

/-- Every pattern that `loadZippyIgnore` hands to `shouldIgnore` is a line of the file
with the white space around it removed: it is not empty, it does not start with
`#`, and trimming it again changes nothing. -/
theorem loadZippyIgnore_trimmed (lines : Option (List Str)) (g : Str)
    (h : g ∈ loadZippyIgnore lines) :
    TrimSpace g = g ∧ g ≠ [] ∧ HasPrefix g ['#'] = false := by
  cases lines with
  | none => simp [loadZippyIgnore] at h
  | some ls =>
    simp only [loadZippyIgnore, List.mem_filterMap] at h
    obtain ⟨text, _, htext⟩ := h
    split at htext
    · rename_i hc
      cases htext
      exact ⟨TrimSpace_idem text, hc.1, hc.2⟩
    · cases htext

/-! ## C2: directory patterns -/

/-- C2: for every path `p` and every pattern `d` that ends in `/`, `shouldIgnore` with
the single pattern `d` answers true exactly when the slash-normalised path starts
with the literal text of `d`; so `build/` ignores `build/x.txt` and
`build/sub/y.txt` and does not ignore `buildX/y.txt`.  A pattern is a line as
`loadZippyIgnore` stores it, without white space around it
(`loadZippyIgnore_trimmed`). -/
theorem shouldIgnore_dir_pattern (p d : Str) (hd : HasSuffix d ['/'] = true)
    (ht : TrimSpace d = d) :
    (shouldIgnore [d] p = true ↔ HasPrefix (ToSlash p) d = true) ∧
    shouldIgnore ["build/".toList] "build/x.txt".toList = true ∧
    shouldIgnore ["build/".toList] "build/sub/y.txt".toList = true ∧
    shouldIgnore ["build/".toList] "buildX/y.txt".toList = false := by
  refine ⟨?_, by decide, by decide, by decide⟩
  have hne : TrimSpace d ≠ [] := by
    rw [ht]
    intro h
    rw [h] at hd
    exact absurd hd (by decide)
  have hsuf : HasSuffix (ToSlash (TrimSpace d)) ['/'] = true := by
    rw [ToSlash_eq, ht]; exact hd
  rw [shouldIgnore_single, if_neg hne, if_pos hsuf, ToSlash_eq (TrimSpace d), ht]

/-- Witness for C2: the pattern `build/`, as read from a `.zippyignore` file whose only
line is `build/`, and the path `build/x.txt`. -/
theorem shouldIgnore_dir_pattern_witness :
    "build/".toList ∈ loadZippyIgnore (some ["build/".toList]) ∧
    HasSuffix "build/".toList ['/'] = true ∧
    TrimSpace "build/".toList = "build/".toList ∧
    (shouldIgnore ["build/".toList] "build/x.txt".toList = true ↔
      HasPrefix (ToSlash "build/x.txt".toList) "build/".toList = true) :=
  ⟨by decide, by decide, by decide,
    (shouldIgnore_dir_pattern "build/x.txt".toList "build/".toList
      (by decide) (by decide)).1⟩

/-! ## C3: glob patterns -/

/-- C3: for every path `p` and every non-empty pattern `g` that does not end in `/`,
`shouldIgnore` with the single pattern `g` answers true exactly when the glob `g`
matches the whole slash-normalised path or its base name; `*.log` ignores
`a/b/c.log` through the base name although it does not match the whole path.  A
pattern is a line as `loadZippyIgnore` stores it, without white space around it
(`loadZippyIgnore_trimmed`). -/
theorem shouldIgnore_glob_pattern (p g : Str) (hne : g ≠ [])
    (hs : HasSuffix g ['/'] = false) (ht : TrimSpace g = g) :
    (shouldIgnore [g] p = true ↔
      (Match g (ToSlash p) = some true ∨ Match g (Base (ToSlash p)) = some true)) ∧
    shouldIgnore ["*.log".toList] "a/b/c.log".toList = true ∧
    Match "*.log".toList "a/b/c.log".toList = some false ∧
    Match "*.log".toList (Base "a/b/c.log".toList) = some true := by
  refine ⟨?_, by decide, by decide, by decide⟩
  have hne2 : TrimSpace g ≠ [] := by rw [ht]; exact hne
  have hs2 : ¬ HasSuffix (ToSlash (TrimSpace g)) ['/'] = true := by
    rw [ToSlash_eq, ht, hs]; simp
  rw [shouldIgnore_single, if_neg hne2, if_neg hs2, ToSlash_eq (TrimSpace g), ht]
  by_cases h1 : Match g (ToSlash p) = some true
  · simp [h1]
  · by_cases h2 : Match g (Base (ToSlash p)) = some true
    · simp [h1, h2]
    · simp [h1, h2]

/-- Witness for C3: the pattern `*.log`, as read from a `.zippyignore` file whose only
line is `*.log`, and the path `a/b/c.log`. -/
theorem shouldIgnore_glob_pattern_witness :
    "*.log".toList ∈ loadZippyIgnore (some ["*.log".toList]) ∧
    ("*.log".toList : Str) ≠ [] ∧ HasSuffix "*.log".toList ['/'] = false ∧
    TrimSpace "*.log".toList = "*.log".toList ∧
    (shouldIgnore ["*.log".toList] "a/b/c.log".toList = true ↔
      (Match "*.log".toList (ToSlash "a/b/c.log".toList) = some true ∨
       Match "*.log".toList (Base (ToSlash "a/b/c.log".toList)) = some true)) :=
  ⟨by decide, by decide, by decide, by decide,
    (shouldIgnore_glob_pattern "a/b/c.log".toList "*.log".toList
      (by decide) (by decide) (by decide)).1⟩

/-! ## C4: the order of the patterns -/

/-- C4: `shouldIgnore` does not depend on the order of the patterns: two lists that are
permutations of one another give the same answer for every path, and the answer is
true exactly when some pattern of the list, taken alone, ignores the path. -/
theorem shouldIgnore_perm (p : Str) (P Q : List Str) (h : P.Perm Q) :
    shouldIgnore P p = shouldIgnore Q p ∧
    (shouldIgnore P p = true ↔ ∃ g ∈ P, shouldIgnore [g] p = true) := by
  constructor
  · simp only [shouldIgnore]
    rw [shouldIgnoreLoop_eq_any, shouldIgnoreLoop_eq_any (ToSlash p) Q]
    exact any_perm _ h
  · simp only [shouldIgnore]
    rw [shouldIgnoreLoop_eq_any, List.any_eq_true]

/-- Witness for C4: a malformed glob, a blank entry and `*.log`, in two orders. -/
theorem shouldIgnore_perm_witness :
    shouldIgnore ["[".toList, " ".toList, "*.log".toList] "a/c.log".toList =
      shouldIgnore ["*.log".toList, "[".toList, " ".toList] "a/c.log".toList :=
  (shouldIgnore_perm "a/c.log".toList ["[".toList, " ".toList, "*.log".toList]
    ["*.log".toList, "[".toList, " ".toList] (by decide)).1

/-! ## The file system: lemmas -/

theorem lookup_filter_ne {α : Type} (l : List (Path × α)) (p q : Path) (h : q ≠ p) :
    (l.filter (fun kv => kv.1 != p)).lookup q = l.lookup q := by
  induction l with
  | nil => rfl
  | cons kv l ih =>
    obtain ⟨k, v⟩ := kv
    by_cases hk : k = p
    · subst hk
      have h' : (q == k) = false := by simpa using h
      simp [List.filter_cons, List.lookup, h', ih]
    · have hk' : (k != p) = true := by simpa using hk
      simp only [List.filter_cons, hk', if_true, List.lookup]
      split
      · rfl
      · exact ih

theorem lookup_putKey_self {α : Type} (l : List (Path × α)) (p : Path) (x : α) :
    (putKey l p x).lookup p = some x := by
  simp [putKey, List.lookup]

theorem lookup_putKey_ne {α : Type} (l : List (Path × α)) (p q : Path) (x : α) (h : q ≠ p) :
    (putKey l p x).lookup q = l.lookup q := by
  have h' : (q == p) = false := by simpa using h
  simp only [putKey, List.lookup, h']
  exact lookup_filter_ne l p q h

theorem FS.stat_put_self (fs : FS) (p : Path) (n : Node) (h : p ≠ []) :
    (fs.put p n).stat p = some n := by
  simp [FS.stat, FS.put, h, List.lookup]

theorem FS.stat_put_ne (fs : FS) (p q : Path) (n : Node) (h : q ≠ p) :
    (fs.put p n).stat q = fs.stat q := by
  have h' : (q == p) = false := by simpa using h
  simp only [FS.stat, FS.put, List.lookup, h']
  split
  · rfl
  · exact lookup_filter_ne fs p q h

theorem FS.stat_root (fs : FS) : fs.stat [] = some Node.dir := by
  simp [FS.stat]

/-- `MkdirAll` leaves everything that exists as it is. -/
theorem mkdirLoop_stat_of_some (rest : List Str) :
    ∀ (fs : FS) (done q : Path) (n : Node), fs.stat q = some n →
      (mkdirLoop fs done rest).1.stat q = some n := by
  induction rest with
  | nil => intro fs done q n h; simpa [mkdirLoop] using h
  | cons e rest ih =>
    intro fs done q n h
    simp only [mkdirLoop]
    split
    · exact ih _ _ _ _ h
    · exact h
    · rename_i hnone
      apply ih
      have hne : q ≠ done ++ [e] := by
        intro heq; rw [heq, hnone] at h; cases h
      rw [FS.stat_put_ne _ _ _ _ hne]; exact h

/-- What `MkdirAll` adds is a directory on the way to its argument. -/
theorem mkdirLoop_stat_new (rest : List Str) :
    ∀ (fs : FS) (done q : Path) (n : Node), (mkdirLoop fs done rest).1.stat q = some n →
      fs.stat q = none → n = Node.dir ∧ ∃ k, 0 < k ∧ k ≤ rest.length ∧ q = done ++ rest.take k := by
  induction rest with
  | nil =>
    intro fs done q n h h0
    simp only [mkdirLoop] at h
    rw [h0] at h; cases h
  | cons e rest ih =>
    intro fs done q n h h0
    simp only [mkdirLoop] at h
    split at h
    · obtain ⟨h1, k, hk1, hk2, hk3⟩ := ih _ _ _ _ h h0
      refine ⟨h1, k + 1, Nat.succ_pos _, by simpa using hk2, ?_⟩
      rw [hk3]; simp
    · rw [h0] at h; cases h
    · by_cases hq : q = done ++ [e]
      · subst hq
        have hroot : done ++ [e] ≠ [] := by simp
        have := mkdirLoop_stat_of_some rest (fs.put (done ++ [e]) Node.dir) (done ++ [e])
          (done ++ [e]) Node.dir (FS.stat_put_self _ _ _ hroot)
        rw [this] at h
        refine ⟨(Option.some.inj h).symm, 1, Nat.one_pos, by simp, by simp⟩
      · have h0' : (fs.put (done ++ [e]) Node.dir).stat q = none := by
          rw [FS.stat_put_ne _ _ _ _ hq]; exact h0
        obtain ⟨h1, k, hk1, hk2, hk3⟩ := ih _ _ _ _ h h0'
        refine ⟨h1, k + 1, Nat.succ_pos _, by simpa using hk2, ?_⟩
        rw [hk3]; simp

/-- `MkdirAll` succeeds when no regular file lies on the way, and then every prefix on
the way is a directory. -/
theorem mkdirLoop_ok (rest : List Str) :
    ∀ (fs : FS) (done : Path),
      (∀ k, 0 < k → k ≤ rest.length → ∀ d, fs.stat (done ++ rest.take k) ≠ some (Node.file d)) →
      (mkdirLoop fs done rest).2 = true ∧
      ∀ k, 0 < k → k ≤ rest.length →
        (mkdirLoop fs done rest).1.stat (done ++ rest.take k) = some Node.dir := by
  induction rest with
  | nil =>
    intro fs done _
    refine ⟨rfl, ?_⟩
    intro k hk1 hk2
    simp at hk2; omega
  | cons e rest ih =>
    intro fs done hfree
    have hstep : ∀ fs1 : FS, fs1.stat (done ++ [e]) = some Node.dir →
        (∀ q, q ≠ done ++ [e] → fs1.stat q = fs.stat q) →
        (mkdirLoop fs1 (done ++ [e]) rest).2 = true ∧
        ∀ k, 0 < k → k ≤ (e :: rest).length →
          (mkdirLoop fs1 (done ++ [e]) rest).1.stat (done ++ (e :: rest).take k) =
            some Node.dir := by
      intro fs1 hdir hsame
      have hfree1 : ∀ k, 0 < k → k ≤ rest.length → ∀ d,
          fs1.stat ((done ++ [e]) ++ rest.take k) ≠ some (Node.file d) := by
        intro k hk1 hk2 d
        have hne : (done ++ [e]) ++ rest.take k ≠ done ++ [e] := by
          intro heq
          have hlen : (rest.take k).length = k := by
            rw [List.length_take]; exact Nat.min_eq_left hk2
          have := congrArg List.length heq
          simp only [List.length_append, hlen] at this
          omega
        rw [hsame _ hne]
        have := hfree (k + 1) (Nat.succ_pos _) (by simpa using hk2) d
        simpa using this
      obtain ⟨h1, h2⟩ := ih fs1 (done ++ [e]) hfree1
      refine ⟨h1, ?_⟩
      intro k hk1 hk2
      cases k with
      | zero => omega
      | succ k =>
        cases k with
        | zero =>
          have := mkdirLoop_stat_of_some rest fs1 (done ++ [e]) (done ++ [e]) Node.dir hdir
          simpa using this
        | succ k =>
          have := h2 (k + 1) (Nat.succ_pos _) (by simpa using hk2)
          simpa using this
    simp only [mkdirLoop]
    split
    · rename_i hd
      exact hstep fs hd (fun _ _ => rfl)
    · rename_i d hd
      exact absurd (by simpa using hd) (hfree 1 Nat.one_pos (by simp) d)
    · rename_i hnone
      exact hstep _ (FS.stat_put_self _ _ _ (by simp)) (fun q hq => FS.stat_put_ne _ _ _ _ hq)

theorem FS.create_eq (fs fs' : FS) (p : Path) (data : Bytes) (h : fs.create p data = some fs') :
    fs' = fs.put p (Node.file data) ∧ p ≠ [] := by
  unfold FS.create at h
  split at h
  · cases h
  · rename_i hp
    split at h
    · split at h
      · cases h
      · exact ⟨(Option.some.inj h).symm, hp⟩
    · cases h

theorem FS.create_ok (fs : FS) (p : Path) (data : Bytes) (hp : p ≠ [])
    (hparent : fs.stat (Dir p) = some Node.dir) (hnd : fs.stat p ≠ some Node.dir) :
    fs.create p data = some (fs.put p (Node.file data)) := by
  unfold FS.create
  rw [if_neg hp, hparent]
  cases h : fs.stat p with
  | none => rfl
  | some n =>
    cases n with
    | file d => rfl
    | dir => exact absurd h hnd


/-! ## C5: `restore` with a path filter -/

theorem restoredNames_append (l₁ l₂ : List Msg) :
    restoredNames (l₁ ++ l₂) = restoredNames l₁ ++ restoredNames l₂ := by
  simp [restoredNames, List.filterMap_append]

theorem attemptedNames_append (l₁ l₂ : List Msg) :
    attemptedNames (l₁ ++ l₂) = attemptedNames l₁ ++ attemptedNames l₂ := by
  simp [attemptedNames, List.filterMap_append]

theorem restoreLoop_skip_iff (f : Str) (e : ZipEntry) :
    (f ≠ [] ∧ ToSlash e.Name ≠ f ∧ HasPrefix (ToSlash e.Name) (f ++ ['/']) = false) ↔
      passes f e = false := by
  by_cases hf : f = []
  · subst hf
    simp [passes]
  · by_cases h1 : ToSlash e.Name = f
    · simp [passes, selectedBy, hf, h1]
    · cases h2 : HasPrefix (ToSlash e.Name) (f ++ ['/']) <;>
        simp [passes, selectedBy, hf, h1, h2]

theorem restoreLoop_attempted (z : Zippy) (f : Str) (a : Archive) :
    ∀ (fs : FS) (r : Bool) (log : List Msg),
      attemptedNames (restoreLoop z f a fs r log).2.2 =
        attemptedNames log ++
          (a.filter (fun e => !e.IsDir && passes f e)).map ZipEntry.Name := by
  induction a with
  | nil => intro fs r log; simp [restoreLoop]
  | cons e rest ih =>
    intro fs r log
    simp only [restoreLoop]
    split
    · rename_i h
      have hp : passes f e = false := (restoreLoop_skip_iff f e).1 h
      rw [ih]
      simp [List.filter_cons, hp]
    · rename_i h
      have hp : passes f e = true := by
        cases hq : passes f e
        · exact absurd ((restoreLoop_skip_iff f e).2 hq) h
        · rfl
      split
      · rename_i hd
        rw [ih]
        simp [List.filter_cons, hd]
      · rename_i hd
        have hd' : e.IsDir = false := by simpa using hd
        split
        · rw [ih, attemptedNames_append]
          simp [List.filter_cons, hd', hp, attemptedNames]
        · rw [ih, attemptedNames_append]
          simp [List.filter_cons, hd', hp, attemptedNames]


theorem restoredNames_eq_attempted_of_no_error (l : List Msg)
    (h : ∀ n, Msg.errorRestoring n ∉ l) : restoredNames l = attemptedNames l := by
  induction l with
  | nil => rfl
  | cons m l ih =>
    have ih := ih (fun n hn => h n (List.mem_cons_of_mem _ hn))
    cases m with
    | errorRestoring name => exact absurd (List.mem_cons_self _ _) (h name)
    | _ => simp_all [restoredNames, attemptedNames, List.filterMap_cons]

theorem restoreLoop_nothing_passes (z : Zippy) (f : Str) (a : Archive)
    (h : ∀ e ∈ a, passes f e = false) :
    ∀ (fs : FS) (r : Bool) (log : List Msg), restoreLoop z f a fs r log = (fs, r, log) := by
  induction a with
  | nil => intro fs r log; rfl
  | cons e rest ih =>
    intro fs r log
    have he := (restoreLoop_skip_iff f e).2 (h e (List.mem_cons_self _ _))
    simp only [restoreLoop, if_pos he]
    exact ih (fun e' he' => h e' (List.mem_cons_of_mem _ he')) fs r log

/-- Every entry reported as written is a selected file entry of the archive, and its
destination holds the contents of such an entry. -/
theorem restoreLoop_written (z : Zippy) (f : Str) (a rest : Archive) :
    ∀ (fs : FS) (r : Bool) (log : List Msg), (∀ e ∈ rest, e ∈ a) →
      (∀ n ∈ restoredNames log, ∃ e ∈ a, e.IsDir = false ∧ passes f e = true ∧
        Join z.repoPath e.Name = Join z.repoPath n ∧
        fs.stat (Join z.repoPath n) = some (Node.file e.data)) →
      ∀ n ∈ restoredNames (restoreLoop z f rest fs r log).2.2,
        ∃ e ∈ a, e.IsDir = false ∧ passes f e = true ∧
          Join z.repoPath e.Name = Join z.repoPath n ∧
          (restoreLoop z f rest fs r log).1.stat (Join z.repoPath n) =
            some (Node.file e.data) := by
  induction rest with
  | nil => intro fs r log _ h; simpa [restoreLoop] using h
  | cons e rest ih =>
    intro fs r log hsub hinv
    have hsub' : ∀ e' ∈ rest, e' ∈ a := fun e' he' => hsub e' (List.mem_cons_of_mem _ he')
    have hmk : ∀ (p : Path), ∀ n ∈ restoredNames log, ∃ e ∈ a, e.IsDir = false ∧
        passes f e = true ∧ Join z.repoPath e.Name = Join z.repoPath n ∧
        (MkdirAll fs p).1.stat (Join z.repoPath n) = some (Node.file e.data) := by
      intro p n hn
      obtain ⟨e0, h0, h1, h2, h3, h4⟩ := hinv n hn
      exact ⟨e0, h0, h1, h2, h3, mkdirLoop_stat_of_some _ _ _ _ _ h4⟩
    simp only [restoreLoop]
    split
    · exact ih _ _ _ hsub' hinv
    · rename_i hskip
      have hp : passes f e = true := by
        cases hq : passes f e
        · exact absurd ((restoreLoop_skip_iff f e).2 hq) hskip
        · rfl
      split
      · exact ih _ _ _ hsub' (hmk _)
      · rename_i hd
        have hd' : e.IsDir = false := by simpa using hd
        split
        · apply ih _ _ _ hsub'
          rw [restoredNames_append]
          simpa [restoredNames] using hmk _
        · rename_i fs2 hcreate
          obtain ⟨hfs2, hne⟩ := FS.create_eq _ _ _ _ hcreate
          apply ih _ _ _ hsub'
          intro n hn
          rw [restoredNames_append] at hn
          by_cases hq : Join z.repoPath n = Join z.repoPath e.Name
          · refine ⟨e, hsub e (List.mem_cons_self _ _), hd', hp, hq.symm, ?_⟩
            rw [hq, hfs2]
            exact FS.stat_put_self _ _ _ hne
          · rcases List.mem_append.1 hn with hn | hn
            · obtain ⟨e0, h0, h1, h2, h3, h4⟩ := hmk (Dir (Join z.repoPath e.Name)) n hn
              refine ⟨e0, h0, h1, h2, h3, ?_⟩
              rw [hfs2, FS.stat_put_ne _ _ _ _ hq]; exact h4
            · simp [restoredNames] at hn
              subst hn
              exact absurd rfl hq

theorem passes_of_ne (f : Str) (hf : f ≠ []) (e : ZipEntry) : passes f e = selectedBy f e := by
  simp [passes, hf]

theorem passes_nil (e : ZipEntry) : passes [] e = true := by
  simp [passes]

theorem FS.create_canOpen (fs : FS) (p : Path) (data : Bytes) :
    fs.create p data = if canOpen fs p = true then some (fs.put p (Node.file data)) else none := by
  unfold FS.create canOpen
  by_cases hp : p = []
  · simp [hp]
  · rw [if_neg hp]
    cases h1 : fs.stat (Dir p) with
    | none => simp
    | some n1 =>
      cases n1 with
      | file d => simp
      | dir =>
        cases h2 : fs.stat p with
        | none => simp [hp]
        | some n2 =>
          cases n2 with
          | file d => simp [hp]
          | dir => simp

theorem restoreLoop_append (z : Zippy) (f : Str) (pre post : Archive) :
    ∀ (fs : FS) (r : Bool) (log : List Msg),
      restoreLoop z f (pre ++ post) fs r log =
        restoreLoop z f post (restoreLoop z f pre fs r log).1
          (restoreLoop z f pre fs r log).2.1 (restoreLoop z f pre fs r log).2.2 := by
  induction pre with
  | nil => intro fs r log; rfl
  | cons e rest ih =>
    intro fs r log
    simp only [List.cons_append, restoreLoop]
    split
    · exact ih _ _ _
    · split
      · exact ih _ _ _
      · split
        · exact ih _ _ _
        · exact ih _ _ _

/-- The messages printed so far stay: the loop only appends. -/
theorem restoreLoop_log_initial (z : Zippy) (f : Str) (a : Archive) :
    ∀ (fs : FS) (r : Bool) (log : List Msg), log <+: (restoreLoop z f a fs r log).2.2 := by
  induction a with
  | nil => intro fs r log; exact List.prefix_refl _
  | cons e rest ih =>
    intro fs r log
    simp only [restoreLoop]
    split
    · exact ih _ _ _
    · split
      · exact ih _ _ _
      · split
        · exact (List.prefix_append _ _).trans (ih _ _ _)
        · exact (List.prefix_append _ _).trans (ih _ _ _)

/-- One turn of the loop of `restore` at a file entry that the filter lets through. -/
theorem restoreLoop_file_step (z : Zippy) (f : Str) (e : ZipEntry) (fs : FS) (r : Bool)
    (log : List Msg) (hd : e.IsDir = false) (hp : passes f e = true) :
    restoreLoop z f [e] fs r log =
      if canOpen (MkdirAll fs (Dir (Join z.repoPath e.Name))).1 (Join z.repoPath e.Name) = true
      then (((MkdirAll fs (Dir (Join z.repoPath e.Name))).1).put (Join z.repoPath e.Name)
              (Node.file e.data), true, log ++ [Msg.restored e.Name])
      else ((MkdirAll fs (Dir (Join z.repoPath e.Name))).1, r,
              log ++ [Msg.errorRestoring e.Name]) := by
  have hskip : ¬ (f ≠ [] ∧ ToSlash e.Name ≠ f ∧
      HasPrefix (ToSlash e.Name) (f ++ ['/']) = false) := by
    intro h
    have := (restoreLoop_skip_iff f e).1 h
    rw [hp] at this; cases this
  simp only [restoreLoop, if_neg hskip, hd, Bool.false_eq_true, if_false, FS.create_canOpen]
  by_cases hc : canOpen (MkdirAll fs (Dir (Join z.repoPath e.Name))).1
      (Join z.repoPath e.Name) = true
  · simp only [hc, if_true]
  · simp only [hc, Bool.false_eq_true, if_false]

/-- C5 (as amended): `restore` tries to write exactly the file entries of the archive
that the filter selects (name equal to `f`, or starting with `f` and a slash), and
every file entry when the filter is empty.  When the loop reaches such an entry it
makes the parent directories; if the destination can then be opened for writing,
the entry is written there and reported as restored; if it cannot, the failure is
reported for that entry, no file is written for it and the loop goes on.  What is
reported stays in the output, so with no failure reported the entries written are
exactly the selected ones, and after the run the destination of an entry reported
as written holds the bytes of a selected file entry.  When a non-empty filter
selects no entry, nothing changes and the not-found outcome is reported.  The
filter `b.txt` selects `b.txt`, not `b.txtx` or `a.txt`. -/
theorem restore_filter (z : Zippy) (w : World) (version f : Str) (v : Version) (a : Archive)
    (hrec : w.records.lookup (Join z.versionsPath (version ++ ".json".toList)) = some (some v))
    (harch : w.archives.lookup (osPath z.repoPath v.ZipPath) = some a) :
    (f ≠ [] → attemptedNames (restore z w version f).2 =
      (a.filter (fun e => !e.IsDir && selectedBy f e)).map ZipEntry.Name) ∧
    (f = [] → attemptedNames (restore z w version f).2 = fileNames a) ∧
    (restoreAfter z w version f [] = (w.fs, false, [Msg.restoring version f]) ∧
      (restore z w version f).1 = { w with fs := (restoreAfter z w version f a).1 } ∧
      (restoreAfter z w version f a).2.2 <+: (restore z w version f).2) ∧
    (∀ (pre : Archive) (e : ZipEntry) (post : Archive), a = pre ++ e :: post →
      e.IsDir = false → passes f e = true →
      (canOpen (MkdirAll (restoreAfter z w version f pre).1
            (Dir (Join z.repoPath e.Name))).1 (Join z.repoPath e.Name) = true →
        (restoreAfter z w version f (pre ++ [e])).1 =
          ((MkdirAll (restoreAfter z w version f pre).1
            (Dir (Join z.repoPath e.Name))).1).put (Join z.repoPath e.Name)
              (Node.file e.data) ∧
        (restoreAfter z w version f (pre ++ [e])).1.stat (Join z.repoPath e.Name) =
          some (Node.file e.data) ∧
        (restoreAfter z w version f (pre ++ [e])).2.2 =
          (restoreAfter z w version f pre).2.2 ++ [Msg.restored e.Name]) ∧
      (canOpen (MkdirAll (restoreAfter z w version f pre).1
            (Dir (Join z.repoPath e.Name))).1 (Join z.repoPath e.Name) = false →
        (restoreAfter z w version f (pre ++ [e])).1 =
          (MkdirAll (restoreAfter z w version f pre).1 (Dir (Join z.repoPath e.Name))).1 ∧
        (restoreAfter z w version f (pre ++ [e])).2.2 =
          (restoreAfter z w version f pre).2.2 ++ [Msg.errorRestoring e.Name]) ∧
      (restoreAfter z w version f (pre ++ [e])).2.2 <+: (restore z w version f).2) ∧
    ((∀ n, Msg.errorRestoring n ∉ (restore z w version f).2) →
      restoredNames (restore z w version f).2 = attemptedNames (restore z w version f).2) ∧
    (∀ n ∈ restoredNames (restore z w version f).2, ∃ e ∈ a, e.IsDir = false ∧
      passes f e = true ∧ Join z.repoPath e.Name = Join z.repoPath n ∧
      (restore z w version f).1.fs.stat (Join z.repoPath n) = some (Node.file e.data)) ∧
    (f ≠ [] → (∀ e ∈ a, selectedBy f e = false) →
      (restore z w version f).1 = w ∧
      (restore z w version f).2 =
        [Msg.restoring version f, Msg.notFoundInVersion f version]) ∧
    selectedBy "b.txt".toList ⟨"b.txt".toList, [], false⟩ = true ∧
    selectedBy "b.txt".toList ⟨"b.txtx".toList, [], false⟩ = false ∧
    selectedBy "b.txt".toList ⟨"a.txt".toList, [], false⟩ = false := by
  have hlog : ∀ l : List Msg,
      attemptedNames (if (!(restoreLoop z f a w.fs false [Msg.restoring version f]).2.1 &&
            f != []) = true
          then l ++ [Msg.notFoundInVersion f version]
          else if (restoreLoop z f a w.fs false [Msg.restoring version f]).2.1 = true
            then l ++ [Msg.restoreComplete] else l) = attemptedNames l ∧
      restoredNames (if (!(restoreLoop z f a w.fs false [Msg.restoring version f]).2.1 &&
            f != []) = true
          then l ++ [Msg.notFoundInVersion f version]
          else if (restoreLoop z f a w.fs false [Msg.restoring version f]).2.1 = true
            then l ++ [Msg.restoreComplete] else l) = restoredNames l := by
    intro l
    split
    · simp [attemptedNames_append, restoredNames_append, attemptedNames, restoredNames]
    · split <;>
        simp [attemptedNames_append, restoredNames_append, attemptedNames, restoredNames]
  have hatt : attemptedNames (restore z w version f).2 =
      (a.filter (fun e => !e.IsDir && passes f e)).map ZipEntry.Name := by
    simp only [restore, hrec, harch, ToSlash_eq]
    rw [(hlog _).1, restoreLoop_attempted]
    simp [attemptedNames]
  have hfinal : (restoreAfter z w version f a).2.2 <+: (restore z w version f).2 := by
    simp only [restore, hrec, harch, restoreAfter]
    split
    · exact List.prefix_append _ _
    · split
      · exact List.prefix_append _ _
      · exact List.prefix_refl _
  refine ⟨?_, ?_, ⟨rfl, ?_, hfinal⟩, ?_, ?_, ?_, ?_, by decide, by decide, by decide⟩
  · intro hf
    rw [hatt]
    congr 1
    apply List.filter_congr
    intro e _
    rw [passes_of_ne f hf]
  · intro hf
    subst hf
    rw [hatt]
    simp [fileNames, passes_nil]
  · simp only [restore, hrec, harch, restoreAfter]
  · intro pre e post ha hd hp
    have hstep : restoreAfter z w version f (pre ++ [e]) =
        restoreLoop z f [e] (restoreAfter z w version f pre).1
          (restoreAfter z w version f pre).2.1 (restoreAfter z w version f pre).2.2 := by
      simp only [restoreAfter, ToSlash_eq]
      exact restoreLoop_append z f pre [e] _ _ _
    have hrest : (restoreAfter z w version f (pre ++ [e])).2.2 <+:
        (restoreAfter z w version f a).2.2 := by
      have ha2 : a = (pre ++ [e]) ++ post := by rw [ha]; simp
      have : restoreAfter z w version f a =
          restoreLoop z f post (restoreAfter z w version f (pre ++ [e])).1
            (restoreAfter z w version f (pre ++ [e])).2.1
            (restoreAfter z w version f (pre ++ [e])).2.2 := by
        rw [ha2]
        simp only [restoreAfter, ToSlash_eq]
        exact restoreLoop_append z f (pre ++ [e]) post _ _ _
      rw [this]
      exact restoreLoop_log_initial z f post _ _ _
    rw [hstep, restoreLoop_file_step z f e _ _ _ hd hp]
    refine ⟨?_, ?_, ?_⟩
    · intro hc
      rw [if_pos hc]
      refine ⟨rfl, ?_, rfl⟩
      have hne : Join z.repoPath e.Name ≠ [] := by
        intro h0
        rw [h0] at hc
        simp [canOpen] at hc
      exact FS.stat_put_self _ _ _ hne
    · intro hc
      rw [if_neg (by rw [hc]; simp)]
      exact ⟨rfl, rfl⟩
    · rw [← restoreLoop_file_step z f e _ _ _ hd hp, ← hstep]
      exact hrest.trans hfinal
  · intro hne
    exact restoredNames_eq_attempted_of_no_error _ hne
  · intro n hn
    simp only [restore, hrec, harch, ToSlash_eq] at hn ⊢
    rw [(hlog _).2] at hn
    exact restoreLoop_written z f a a w.fs false _ (fun _ h => h)
      (by simp [restoredNames]) n hn
  · intro hf hsel
    have hnone : ∀ e ∈ a, passes f e = false := by
      intro e he; rw [passes_of_ne f hf]; exact hsel e he
    simp only [restore, hrec, harch, ToSlash_eq,
      restoreLoop_nothing_passes z f a hnone]
    simp [hf]

/-- Witness for C5: `restore v1 b.txt` into a working tree that holds only `c.txt`.  The
entry `a.txt` is passed over; when the loop reaches `b.txt` its destination can be
opened, and the entry is reported as restored. -/
theorem restore_filter_witness :
    restoredNames (restore sampleZippy
        (sampleWorld [(["repo".toList, "c.txt".toList], Node.file [99])] none)
        "v1".toList "b.txt".toList).2 = ["b.txt".toList] ∧
    attemptedNames (restore sampleZippy
        (sampleWorld [(["repo".toList, "c.txt".toList], Node.file [99])] none)
        "v1".toList "b.txt".toList).2 =
      (sampleArchive.filter (fun e => !e.IsDir && selectedBy "b.txt".toList e)).map
        ZipEntry.Name ∧
    (restoreAfter sampleZippy
        (sampleWorld [(["repo".toList, "c.txt".toList], Node.file [99])] none)
        "v1".toList "b.txt".toList
        ([⟨"a.txt".toList, [97], false⟩] ++ [⟨"b.txt".toList, [98], false⟩])).1.stat
          (Join sampleZippy.repoPath "b.txt".toList) = some (Node.file [98]) :=
  ⟨by decide,
   (restore_filter sampleZippy
      (sampleWorld [(["repo".toList, "c.txt".toList], Node.file [99])] none)
      "v1".toList "b.txt".toList sampleVersion sampleArchive (by decide) (by decide)).1
      (by decide),
   (((restore_filter sampleZippy
      (sampleWorld [(["repo".toList, "c.txt".toList], Node.file [99])] none)
      "v1".toList "b.txt".toList sampleVersion sampleArchive (by decide)
      (by decide)).2.2.2.1 [⟨"a.txt".toList, [97], false⟩] ⟨"b.txt".toList, [98], false⟩ []
      (by decide) (by decide) (by decide)).1 (by decide)).2.1⟩

/-- Counterexample to C5 as stated: the archive of `v1` has the file entry `b.txt`, which
the filter `b.txt` selects, but in the working tree `b.txt` is a directory, so the
destination cannot be opened: `restore v1 b.txt` reports the failure for `b.txt`
and writes nothing; `b.txt` is still a directory afterwards. -/
theorem restore_blocked_destination :
    (sampleArchive.filter (fun e => !e.IsDir && selectedBy "b.txt".toList e)).map
      ZipEntry.Name = ["b.txt".toList] ∧
    canOpen (sampleWorld [(["repo".toList, "b.txt".toList], Node.dir)] none).fs
      (Join sampleZippy.repoPath "b.txt".toList) = false ∧
    restoredNames (restore sampleZippy
        (sampleWorld [(["repo".toList, "b.txt".toList], Node.dir)] none)
        "v1".toList "b.txt".toList).2 = [] ∧
    Msg.errorRestoring "b.txt".toList ∈ (restore sampleZippy
        (sampleWorld [(["repo".toList, "b.txt".toList], Node.dir)] none)
        "v1".toList "b.txt".toList).2 ∧
    (restore sampleZippy
        (sampleWorld [(["repo".toList, "b.txt".toList], Node.dir)] none)
        "v1".toList "b.txt".toList).1 =
      sampleWorld [(["repo".toList, "b.txt".toList], Node.dir)] none := by
  decide

/-! ## C6: `commit` with nothing staged -/

/-- C6: when the staged-entry file is absent or holds the empty list, `commit` reports
that nothing is staged and returns the state it was given: no archive is created, no
record is written and the staged-entry file is as before. -/
theorem commit_nothing_staged (sizeOf : Archive → Int) (z : Zippy) (args : List Str)
    (unixNow now : Int) (w : World) (h : w.stage = none ∨ w.stage = some []) :
    (commit sizeOf z args unixNow now w).1 = w ∧
    (commit sizeOf z args unixNow now w).2 =
      [Msg.creatingVersion (flagValue "-v".toList ('v' :: (toString unixNow).toList) args)
          (flagValue "-m".toList "No message".toList args),
       Msg.noFilesStaged] := by
  rcases h with h | h <;> simp [commit, h]

/-- Witness for C6: `commit -m msg -v v2` in a repository without a staged-entry file. -/
theorem commit_nothing_staged_witness :
    (commit sampleSize sampleZippy
      ["zippy".toList, "commit".toList, "-m".toList, "msg".toList, "-v".toList, "v2".toList]
      5 6 (sampleWorld [] none)).1 = sampleWorld [] none :=
  (commit_nothing_staged sampleSize sampleZippy
    ["zippy".toList, "commit".toList, "-m".toList, "msg".toList, "-v".toList, "v2".toList]
    5 6 (sampleWorld [] none) (Or.inl rfl)).1

/-! ## C7: the file count that `commit` records -/

/-- C7 (the code at the failing input): with `a.txt` and `gone.txt` staged and only
`a.txt` left in the working tree, `commit -v v2` succeeds, writes an archive with
the single entry `a.txt` and records `files_count = 2`.  With the directory `d`
staged, which holds two files, it writes two entries and records
`files_count = 1`. -/
theorem commit_counts_staged_names :
    (commit sampleSize sampleZippy
      ["zippy".toList, "commit".toList, "-m".toList, "msg".toList, "-v".toList, "v2".toList]
      5 6 (sampleWorld [(["repo".toList, "a.txt".toList], Node.file [97])]
        (some ["a.txt".toList, "gone.txt".toList]))).2 =
      [Msg.creatingVersion "v2".toList "msg".toList, Msg.packed 2 "v2.zip".toList,
       Msg.versionCreated "v2".toList] ∧
    (commit sampleSize sampleZippy
      ["zippy".toList, "commit".toList, "-m".toList, "msg".toList, "-v".toList, "v2".toList]
      5 6 (sampleWorld [(["repo".toList, "a.txt".toList], Node.file [97])]
        (some ["a.txt".toList, "gone.txt".toList]))).1.records.lookup
        ["repo".toList, ".zippy".toList, "versions".toList, "v2.json".toList] =
      some (some { Tag := "v2".toList, Message := "msg".toList, Timestamp := 6,
                   Author := "User".toList, FilesCount := 2,
                   ZipPath := "/repo/.zippy/storage/v2.zip".toList, Size := 200 }) ∧
    (commit sampleSize sampleZippy
      ["zippy".toList, "commit".toList, "-m".toList, "msg".toList, "-v".toList, "v2".toList]
      5 6 (sampleWorld [(["repo".toList, "a.txt".toList], Node.file [97])]
        (some ["a.txt".toList, "gone.txt".toList]))).1.archives.lookup
        (osPath ["repo".toList] "/repo/.zippy/storage/v2.zip".toList) =
      some [⟨"a.txt".toList, [97], false⟩] ∧
    ((commit sampleSize sampleZippy
      ["zippy".toList, "commit".toList, "-v".toList, "v3".toList]
      5 6 (sampleWorld [(["repo".toList, "d".toList], Node.dir),
          (["repo".toList, "d".toList, "x".toList], Node.file [120]),
          (["repo".toList, "d".toList, "y".toList], Node.file [121])]
        (some ["d".toList]))).1.records.lookup
        ["repo".toList, ".zippy".toList, "versions".toList, "v3.json".toList]).map
        (fun r => r.map Version.FilesCount) = some (some 1) ∧
    (commit sampleSize sampleZippy
      ["zippy".toList, "commit".toList, "-v".toList, "v3".toList]
      5 6 (sampleWorld [(["repo".toList, "d".toList], Node.dir),
          (["repo".toList, "d".toList, "x".toList], Node.file [120]),
          (["repo".toList, "d".toList, "y".toList], Node.file [121])]
        (some ["d".toList]))).1.archives.lookup
        (osPath ["repo".toList] "/repo/.zippy/storage/v3.zip".toList) =
      some [⟨"d/x".toList, [120], false⟩, ⟨"d/y".toList, [121], false⟩] := by
  decide

/-! ## C9 and C10: what `patch` leaves alone -/

theorem patchVersion_cases (sizeOf : Archive → Int) (z : Zippy) (w : World)
    (version addPath : Str) :
    ((patchVersion sizeOf z w version addPath).1 = w ∧
      Msg.patchComplete ∉ (patchVersion sizeOf z w version addPath).2) ∨
    (∃ v a info scratch,
      w.records.lookup (Join z.versionsPath (version ++ ".json".toList)) = some (some v) ∧
      w.archives.lookup (osPath z.repoPath v.ZipPath) = some a ∧
      w.fs.stat (Join z.repoPath addPath) = some info ∧
      copyIntoScratch w.fs (Join z.repoPath addPath) info addPath (extractLoop a []) =
        some scratch ∧
      w.canWrite (osPath z.repoPath v.ZipPath) = true ∧
      patchVersion sizeOf z w version addPath =
        (saveVersionInfo z
          { w with archives := (putKey w.archives (osPath z.repoPath v.ZipPath)
              (rezipLoop (scratch.descendants []) [] 0).1) }
          { v with Size := sizeOf (rezipLoop (scratch.descendants []) [] 0).1,
                   FilesCount := (rezipLoop (scratch.descendants []) [] 0).2 },
         [Msg.patching version addPath, Msg.patchComplete])) := by
  unfold patchVersion
  split
  · left; simp
  · left; simp
  · rename_i v hrec
    split
    · left; simp
    · rename_i a harch
      split
      · left; simp
      · rename_i info hstat
        split
        · left; simp
        · rename_i scratch hcopy
          split
          · rename_i hw
            right
            exact ⟨v, a, info, scratch, hrec, harch, hstat, hcopy, hw, rfl⟩
          · left; simp

/-- C9: the record that a successful `patch` saves has the tag, message, timestamp,
author and archive location of the record that was loaded; the record files of the
resulting state are those of `saveVersionInfo` applied to that record, so every
record file other than the one written is as before. -/
theorem patch_record_frame (sizeOf : Archive → Int) (z : Zippy) (w : World)
    (version addPath : Str) (v : Version)
    (hrec : w.records.lookup (Join z.versionsPath (version ++ ".json".toList)) = some (some v))
    (hok : Msg.patchComplete ∈ (patchVersion sizeOf z w version addPath).2) :
    ∃ v' : Version,
      v'.Tag = v.Tag ∧ v'.Message = v.Message ∧ v'.Timestamp = v.Timestamp ∧
      v'.Author = v.Author ∧ v'.ZipPath = v.ZipPath ∧
      (patchVersion sizeOf z w version addPath).1.records = (saveVersionInfo z w v').records ∧
      ∀ key r, (patchVersion sizeOf z w version addPath).1.records.lookup key = some r →
        r = some v' ∨ w.records.lookup key = some r := by
  rcases patchVersion_cases sizeOf z w version addPath with ⟨_, h⟩ | h
  · exact absurd hok h
  · obtain ⟨v0, a, info, scratch, hrec0, _, _, _, _, heq⟩ := h
    rw [hrec] at hrec0
    have hv : v = v0 := Option.some.inj (Option.some.inj hrec0)
    subst hv
    refine ⟨{ v with Size := sizeOf (rezipLoop (scratch.descendants []) [] 0).1,
                     FilesCount := (rezipLoop (scratch.descendants []) [] 0).2 },
      rfl, rfl, rfl, rfl, rfl, ?_, ?_⟩
    · rw [heq]
      simp only [saveVersionInfo, World.canWrite]
      split <;> rfl
    · intro key r hr
      rw [heq] at hr
      simp only [saveVersionInfo, World.canWrite] at hr
      split at hr
      · by_cases hk : key = Join z.versionsPath (v.Tag ++ ".json".toList)
        · subst hk
          rw [lookup_putKey_self] at hr
          left; exact (Option.some.inj hr).symm
        · rw [lookup_putKey_ne _ _ _ _ hk] at hr
          right; exact hr
      · right; exact hr

/-- Witness for C9: `patch v1 newfile.txt` in the sample repository. -/
theorem patch_record_frame_witness :
    ∃ v' : Version,
      v'.Tag = sampleVersion.Tag ∧ v'.Message = sampleVersion.Message ∧
      v'.Timestamp = sampleVersion.Timestamp ∧ v'.Author = sampleVersion.Author ∧
      v'.ZipPath = sampleVersion.ZipPath ∧
      (patchVersion sampleSize sampleZippy
        (sampleWorld [(["repo".toList, "newfile.txt".toList], Node.file [110])] none)
        "v1".toList "newfile.txt".toList).1.records =
        (saveVersionInfo sampleZippy
          (sampleWorld [(["repo".toList, "newfile.txt".toList], Node.file [110])] none)
          v').records := by
  obtain ⟨v', h1, h2, h3, h4, h5, h6, _⟩ := patch_record_frame sampleSize sampleZippy
    (sampleWorld [(["repo".toList, "newfile.txt".toList], Node.file [110])] none)
    "v1".toList "newfile.txt".toList sampleVersion (by decide) (by decide)
  exact ⟨v', h1, h2, h3, h4, h5, h6⟩

/-- C10: when the path given to `patch` does not exist in the working tree, `patch` does
not complete and returns the state it was given, so the archive keeps its entries
and bytes and the record keeps its fields; with the record and the archive
readable, what it reports is that the file to add was not found. -/
theorem patch_missing_path (sizeOf : Archive → Int) (z : Zippy) (w : World)
    (version addPath : Str) (h : w.fs.stat (Join z.repoPath addPath) = none) :
    (patchVersion sizeOf z w version addPath).1 = w ∧
    Msg.patchComplete ∉ (patchVersion sizeOf z w version addPath).2 ∧
    ∀ v a, w.records.lookup (Join z.versionsPath (version ++ ".json".toList)) = some (some v) →
      w.archives.lookup (osPath z.repoPath v.ZipPath) = some a →
      (patchVersion sizeOf z w version addPath).2 =
        [Msg.patching version addPath, Msg.fileToAddNotFound] := by
  refine ⟨?_, ?_, ?_⟩
  · rcases patchVersion_cases sizeOf z w version addPath with ⟨h1, _⟩ | h1
    · exact h1
    · obtain ⟨v0, a, info, scratch, _, _, hstat, _⟩ := h1
      rw [h] at hstat; cases hstat
  · rcases patchVersion_cases sizeOf z w version addPath with ⟨_, h1⟩ | h1
    · exact h1
    · obtain ⟨v0, a, info, scratch, _, _, hstat, _⟩ := h1
      rw [h] at hstat; cases hstat
  · intro v a hrec harch
    simp only [patchVersion, hrec, harch, h]

/-- Witness for C10: `patch v1 nosuch.txt` in the sample repository. -/
theorem patch_missing_path_witness :
    (patchVersion sampleSize sampleZippy (sampleWorld [] none)
      "v1".toList "nosuch.txt".toList).1 = sampleWorld [] none :=
  (patch_missing_path sampleSize sampleZippy (sampleWorld [] none)
    "v1".toList "nosuch.txt".toList (by decide)).1

/-! ## C8: what a successful `patch` writes -/

theorem mem_of_lookup {α : Type} (l : List (Path × α)) (p : Path) (x : α)
    (h : l.lookup p = some x) : (p, x) ∈ l := by
  induction l with
  | nil => simp at h
  | cons kv l ih =>
    obtain ⟨k, v⟩ := kv
    by_cases hk : p = k
    · subst hk
      simp only [List.lookup, beq_self_eq_true] at h
      cases h
      exact List.mem_cons_self _ _
    · have h' : (p == k) = false := by simpa using hk
      simp only [List.lookup, h'] at h
      exact List.mem_cons_of_mem _ (ih h)

theorem lookup_of_mem {α : Type} (l : List (Path × α)) (hnd : (l.map Prod.fst).Nodup)
    (p : Path) (x : α) (h : (p, x) ∈ l) : l.lookup p = some x := by
  induction l with
  | nil => simp at h
  | cons kv l ih =>
    obtain ⟨k, v⟩ := kv
    simp only [List.map_cons, List.nodup_cons] at hnd
    rcases List.mem_cons.1 h with h | h
    · cases h; simp [List.lookup]
    · have hk : p ∈ l.map Prod.fst := List.mem_map.2 ⟨(p, x), h, rfl⟩
      have hne : p ≠ k := fun e => hnd.1 (e ▸ hk)
      have h' : (p == k) = false := by simpa using hne
      simp only [List.lookup, h']
      exact ih hnd.2 h

theorem nodup_keys_filter {α : Type} (l : List (Path × α)) (f : Path × α → Bool)
    (hnd : (l.map Prod.fst).Nodup) : ((l.filter f).map Prod.fst).Nodup :=
  (List.Sublist.map _ (List.filter_sublist l)).nodup hnd

theorem FS.nodup_put (fs : FS) (p : Path) (n : Node) (hnd : (fs.map Prod.fst).Nodup) :
    ((fs.put p n).map Prod.fst).Nodup := by
  simp only [FS.put, List.map_cons, List.nodup_cons]
  refine ⟨?_, nodup_keys_filter _ _ hnd⟩
  intro hmem
  obtain ⟨kv, hkv, hk⟩ := List.mem_map.1 hmem
  have := (List.mem_filter.1 hkv).2
  simp [hk] at this

theorem mkdirLoop_nodup (rest : List Str) :
    ∀ (fs : FS) (done : Path), (fs.map Prod.fst).Nodup →
      ((mkdirLoop fs done rest).1.map Prod.fst).Nodup := by
  induction rest with
  | nil => intro fs done h; simpa [mkdirLoop] using h
  | cons e rest ih =>
    intro fs done h
    simp only [mkdirLoop]
    split
    · exact ih _ _ h
    · exact h
    · exact ih _ _ (FS.nodup_put _ _ _ h)

theorem FS.mem_iff_stat (fs : FS) (hnd : (fs.map Prod.fst).Nodup) (p : Path) (n : Node)
    (hp : p ≠ []) : (p, n) ∈ fs ↔ fs.stat p = some n := by
  simp only [FS.stat, if_neg hp]
  exact ⟨lookup_of_mem fs hnd p n, mem_of_lookup fs p n⟩

theorem FS.mem_descendants_root (fs : FS) (kv : Path × Node) :
    kv ∈ fs.descendants [] ↔ kv ∈ fs ∧ kv.1 ≠ [] := by
  simp only [FS.descendants]
  rw [(List.perm_insertionSort walkLE _).mem_iff, List.mem_filter]
  simp

theorem FS.nodup_descendants (fs : FS) (root : Path) (hnd : (fs.map Prod.fst).Nodup) :
    ((fs.descendants root).map Prod.fst).Nodup := by
  simp only [FS.descendants]
  exact ((List.perm_insertionSort walkLE _).map Prod.fst).nodup_iff.2 (nodup_keys_filter _ _ hnd)

theorem rezipLoop_eq (L : List (Path × Node)) :
    ∀ (a : Archive) (n : Nat),
      rezipLoop L a n = (a ++ L.filterMap scratchEntry, n + (L.filterMap scratchEntry).length) := by
  induction L with
  | nil => intro a n; simp [rezipLoop]
  | cons kv L ih =>
    intro a n
    obtain ⟨p, nd⟩ := kv
    cases nd with
    | dir => simp [rezipLoop, ih, scratchEntry, List.filterMap_cons]
    | file d =>
      simp only [rezipLoop, ih, scratchEntry, List.filterMap_cons, zipCreate]
      simp only [List.append_assoc, List.singleton_append, List.length_cons]
      congr 1; omega

theorem nodup_filterMap_on {α β : Type} (f : α → Option β) (l : List α) (hl : l.Nodup)
    (hinj : ∀ x ∈ l, ∀ y ∈ l, ∀ b, f x = some b → f y = some b → x = y) :
    (l.filterMap f).Nodup := by
  induction l with
  | nil => simp
  | cons x l ih =>
    have hl' := List.nodup_cons.1 hl
    have ih := ih hl'.2 (fun a ha b hb c h1 h2 =>
      hinj a (List.mem_cons_of_mem _ ha) b (List.mem_cons_of_mem _ hb) c h1 h2)
    rw [List.filterMap_cons]
    cases hfx : f x with
    | none => simpa using ih
    | some b =>
      simp only
      rw [List.nodup_cons]
      refine ⟨?_, ih⟩
      intro hb
      obtain ⟨y, hy, hfy⟩ := List.mem_filterMap.1 hb
      have := hinj x (List.mem_cons_self _ _) y (List.mem_cons_of_mem _ hy) b hfx hfy
      exact hl'.1 (this ▸ hy)

theorem splitSlash_no_slash (s : Str) : ∀ x ∈ splitSlash s, '/' ∉ x := by
  induction s with
  | nil => intro x hx; simp [splitSlash] at hx; subst hx; simp
  | cons c cs ih =>
    intro x hx
    simp only [splitSlash] at hx
    split at hx
    · rcases List.mem_cons.1 hx with h | h
      · subst h; simp
      · exact ih x h
    · rename_i hc
      split at hx
      · simp at hx; subst hx
        simpa using fun h => hc h.symm
      · rename_i h t heq
        rcases List.mem_cons.1 hx with hx | hx
        · subst hx
          have := ih h (by rw [heq]; exact List.mem_cons_self _ _)
          intro hmem
          rcases List.mem_cons.1 hmem with h1 | h1
          · exact hc h1.symm
          · exact this h1
        · exact ih x (by rw [heq]; exact List.mem_cons_of_mem _ hx)

theorem relCleanLoop_mem (l : List Str) :
    ∀ (stack q : Path), relCleanLoop stack l = some q →
      ∀ x ∈ q, x ∈ stack ∨ (x ∈ l ∧ x ≠ []) := by
  induction l with
  | nil =>
    intro stack q h x hx
    simp only [relCleanLoop] at h
    cases h; exact Or.inl hx
  | cons e rest ih =>
    intro stack q h x hx
    simp only [relCleanLoop] at h
    split at h
    · rcases ih _ _ h x hx with h1 | ⟨h1, h2⟩
      · exact Or.inl h1
      · exact Or.inr ⟨List.mem_cons_of_mem _ h1, h2⟩
    · rename_i hne
      split at h
      · split at h
        · cases h
        · rcases ih _ _ h x hx with h1 | ⟨h1, h2⟩
          · exact Or.inl (List.dropLast_subset _ h1)
          · exact Or.inr ⟨List.mem_cons_of_mem _ h1, h2⟩
      · rcases ih _ _ h x hx with h1 | ⟨h1, h2⟩
        · rcases List.mem_append.1 h1 with h1 | h1
          · exact Or.inl h1
          · simp only [List.mem_singleton] at h1
            subst h1
            refine Or.inr ⟨List.mem_cons_self _ _, ?_⟩
            intro he; exact hne (Or.inl he)
        · exact Or.inr ⟨List.mem_cons_of_mem _ h1, h2⟩

theorem below_elems (name : Str) (q : Path) (h : below name = some q) :
    ∀ x ∈ q, x ≠ [] ∧ '/' ∉ x := by
  intro x hx
  rcases relCleanLoop_mem _ _ _ h x hx with h1 | ⟨h1, h2⟩
  · simp at h1
  · exact ⟨h2, splitSlash_no_slash name x h1⟩

theorem intercalate_last (q : List Str) (hq : q ≠ []) (h : ∀ x ∈ q, x ≠ [] ∧ '/' ∉ x) :
    ∃ t c, List.intercalate ['/'] q = t ++ [c] ∧ c ≠ '/' := by
  induction q with
  | nil => exact absurd rfl hq
  | cons x q ih =>
    cases q with
    | nil =>
      obtain ⟨hx1, hx2⟩ := h x (List.mem_cons_self _ _)
      refine ⟨x.dropLast, x.getLast hx1, ?_, ?_⟩
      · simp [List.intercalate, List.dropLast_append_getLast]
      · intro hc; exact hx2 (hc ▸ List.getLast_mem hx1)
    | cons y q =>
      obtain ⟨t, c, ht, hc⟩ := ih (by simp) (fun z hz => h z (List.mem_cons_of_mem _ hz))
      refine ⟨x ++ ['/'] ++ t, c, ?_, hc⟩
      simp only [List.intercalate, List.intersperse, List.flatten_cons, List.append_assoc] at ht ⊢
      rw [ht]

theorem render_no_trailing_slash (q : Path) (hq : q ≠ []) (h : ∀ x ∈ q, x ≠ [] ∧ '/' ∉ x) :
    HasSuffix (render q) ['/'] = false := by
  cases hs : HasSuffix (render q) ['/'] with
  | false => rfl
  | true =>
    exfalso
    obtain ⟨t2, ht2⟩ := (HasSuffix_iff _ _).1 hs
    obtain ⟨t, c, ht, hc⟩ := intercalate_last q hq h
    simp only [render, if_neg hq] at ht2
    rw [ht] at ht2
    have := List.append_inj_right' ht2 rfl
    simp at this
    exact hc this.symm

theorem isCleanRel_iff (name : Str) :
    isCleanRel name = true ↔ ∃ q, below name = some q ∧ q ≠ [] ∧ render q = name := by
  unfold isCleanRel
  cases h : below name with
  | none => simp
  | some q => simp

theorem isCleanRel_no_trailing_slash (name : Str) (h : isCleanRel name = true) :
    HasSuffix name ['/'] = false := by
  obtain ⟨q, hq, hne, hr⟩ := (isCleanRel_iff name).1 h
  rw [← hr]
  exact render_no_trailing_slash q hne (below_elems name q hq)

theorem Rel_root (p : Path) : Rel [] p = render p := by
  cases p <;> simp [Rel, commonLen]

theorem extractable_file (a : Archive) (h : extractable a = true) (e : ZipEntry) (he : e ∈ a)
    (hf : e.IsDir = false) :
    isCleanRel e.Name = true ∧ ∀ e' ∈ a, clashes e e' = false := by
  simp only [extractable, List.all_eq_true] at h
  have := h e he
  simp only [hf, Bool.false_or, Bool.and_eq_true, List.all_eq_true] at this
  refine ⟨this.1, fun e' he' => ?_⟩
  simpa using this.2 e' he'

theorem clashes_false (e e' : ZipEntry) (q q' : Path) (hq : below e.Name = some q)
    (hq' : below e'.Name = some q') (hc : clashes e e' = false) (hpre : q <+: q') :
    q' = q ∧ e'.IsDir = false := by
  simp only [clashes, hq, hq'] at hc
  have hp : q.isPrefixOf q' = true := by simpa using hpre
  simpa [hp] using hc

theorem take_dropLast_ne (q : Path) (hq : q ≠ []) (k : Nat) : (q.dropLast).take k ≠ q := by
  intro h
  have := congrArg List.length h
  simp only [List.length_take, List.length_dropLast] at this
  have : 0 < q.length := List.length_pos.2 hq
  omega

theorem take_dropLast_initial (q : Path) (k : Nat) : (q.dropLast).take k <+: q :=
  ( List.take_prefix _ _).trans ( List.dropLast_prefix q)

theorem mkdir_preserves (a : Archive) (s : FS) (target : Path) (e : ZipEntry) (p' : Path)
    (hF : FilesFrom a s) (hD : DirsFrom a s) (he : e ∈ a) (hp' : below e.Name = some p')
    (hpre : target <+: p') (hne : e.IsDir = false → target ≠ p') :
    FilesFrom a (MkdirAll s target).1 ∧ DirsFrom a (MkdirAll s target).1 := by
  constructor
  · intro p d hstat
    cases h0 : s.stat p with
    | none =>
      have := (mkdirLoop_stat_new target s [] p _ hstat h0).1
      cases this
    | some n =>
      have h1 := mkdirLoop_stat_of_some target s [] p n h0
      have h2 : (MkdirAll s target).1.stat p = some n := h1
      rw [h2] at hstat
      cases hstat
      exact hF p d h0
  · intro p hp hstat
    cases h0 : s.stat p with
    | none =>
      obtain ⟨_, k, hk1, hk2, hk3⟩ := mkdirLoop_stat_new target s [] p _ hstat h0
      simp only [List.nil_append] at hk3
      have hpt : p <+: target := hk3 ▸ List.take_prefix _ _
      refine ⟨e, he, p', hp', hpt.trans hpre, ?_⟩
      intro hf heq
      have h1 : target.length ≤ p'.length := hpre.length_le
      have h2 : p.length ≤ target.length := hpt.length_le
      have h3 : target.length = p'.length := by rw [← heq] at h1 ⊢; omega
      exact hne hf (hpre.eq_of_length h3)
    | some n =>
      have h1 : (MkdirAll s target).1.stat p = some n :=
        mkdirLoop_stat_of_some target s [] p n h0
      rw [h1] at hstat
      cases hstat
      exact hD p hp h0

theorem extract_file_step (a : Archive) (hext : extractable a = true) (s : FS) (e : ZipEntry)
    (q : Path) (hF : FilesFrom a s) (hD : DirsFrom a s) (he : e ∈ a) (hf : e.IsDir = false)
    (hq : below e.Name = some q) :
    ((MkdirAll s (Dir q)).1).create q e.data =
      some (((MkdirAll s (Dir q)).1).put q (Node.file e.data)) ∧
    FilesFrom a (((MkdirAll s (Dir q)).1).put q (Node.file e.data)) ∧
    DirsFrom a (((MkdirAll s (Dir q)).1).put q (Node.file e.data)) := by
  obtain ⟨hclean, hclash⟩ := extractable_file a hext e he hf
  obtain ⟨q0, hq0, hqne, _⟩ := (isCleanRel_iff e.Name).1 hclean
  rw [hq] at hq0; cases hq0
  have hfree : ∀ k, 0 < k → k ≤ (Dir q).length → ∀ d,
      s.stat ([] ++ (Dir q).take k) ≠ some (Node.file d) := by
    intro k _ _ d hstat
    obtain ⟨e1, he1, hf1, hp1, _⟩ := hF _ d hstat
    simp only [List.nil_append, Dir] at hp1
    have := clashes_false e1 e _ q hp1 hq ((extractable_file a hext e1 he1 hf1).2 e he)
      (take_dropLast_initial q k)
    exact take_dropLast_ne q hqne k this.1.symm
  obtain ⟨_, hdirs⟩ := mkdirLoop_ok (Dir q) s [] hfree
  obtain ⟨hF1, hD1⟩ := mkdir_preserves a s (Dir q) e q hF hD he hq ( List.dropLast_prefix q)
    (fun _ h => by
      have := take_dropLast_ne q hqne (Dir q).length
      simp only [Dir, List.take_length] at this h
      exact this h)
  have hparent : (MkdirAll s (Dir q)).1.stat (Dir (q)) = some Node.dir := by
    by_cases hd : Dir q = []
    · rw [hd]; exact FS.stat_root _
    · have := hdirs (Dir q).length (List.length_pos.2 hd) (le_refl _)
      simpa using this
  have hnd : (MkdirAll s (Dir q)).1.stat q ≠ some Node.dir := by
    intro hstat
    obtain ⟨e2, he2, p2, hp2, hpre2, hne2⟩ := hD1 q hqne hstat
    have := clashes_false e e2 q p2 hq hp2 (hclash e2 he2) hpre2
    exact hne2 this.2 this.1.symm
  refine ⟨FS.create_ok _ _ _ hqne hparent hnd, ?_, ?_⟩
  · intro p d hstat
    by_cases hp : p = q
    · subst hp
      rw [FS.stat_put_self _ _ _ hqne] at hstat
      cases hstat
      exact ⟨e, he, hf, hq, rfl⟩
    · rw [FS.stat_put_ne _ _ _ _ hp] at hstat
      exact hF1 p d hstat
  · intro p hp hstat
    by_cases hpq : p = q
    · subst hpq
      rw [FS.stat_put_self _ _ _ hqne] at hstat
      cases hstat
    · rw [FS.stat_put_ne _ _ _ _ hpq] at hstat
      exact hD1 p hp hstat

theorem extractLoop_files_persist (rest : Archive) :
    ∀ (s : FS) (p : Path), (∃ d, s.stat p = some (Node.file d)) →
      ∃ d, (extractLoop rest s).stat p = some (Node.file d) := by
  induction rest with
  | nil => intro s p h; simpa [extractLoop] using h
  | cons e rest ih =>
    intro s p h
    obtain ⟨d, hd⟩ := h
    simp only [extractLoop]
    split
    · exact ih _ _ ⟨d, hd⟩
    · rename_i q hq
      split
      · exact ih _ _ ⟨d, mkdirLoop_stat_of_some _ _ _ _ _ hd⟩
      · split
        · exact ih _ _ ⟨d, mkdirLoop_stat_of_some _ _ _ _ _ hd⟩
        · rename_i s2 hcreate
          obtain ⟨hs2, hqne⟩ := FS.create_eq _ _ _ _ hcreate
          apply ih
          by_cases hp : p = q
          · subst hp
            exact ⟨e.data, by rw [hs2]; exact FS.stat_put_self _ _ _ hqne⟩
          · refine ⟨d, ?_⟩
            rw [hs2, FS.stat_put_ne _ _ _ _ hp]
            exact mkdirLoop_stat_of_some _ _ _ _ _ hd

/-- The scratch tree after the extraction of an extractable archive: its regular files
are the places of the file entries, each with the contents of such an entry. -/
theorem extractLoop_spec (a : Archive) (hext : extractable a = true) (rest : Archive) :
    ∀ (s : FS), (∀ e ∈ rest, e ∈ a) → FilesFrom a s → DirsFrom a s →
      (s.map Prod.fst).Nodup →
      FilesFrom a (extractLoop rest s) ∧ ((extractLoop rest s).map Prod.fst).Nodup ∧
      ∀ e ∈ rest, e.IsDir = false → ∀ q, below e.Name = some q →
        ∃ d, (extractLoop rest s).stat q = some (Node.file d) := by
  induction rest with
  | nil =>
    intro s _ hF _ hN
    exact ⟨hF, hN, fun e he => absurd he (List.not_mem_nil e)⟩
  | cons e rest ih =>
    intro s hsub hF hD hN
    have he : e ∈ a := hsub e (List.mem_cons_self _ _)
    have hsub' : ∀ e' ∈ rest, e' ∈ a := fun e' he' => hsub e' (List.mem_cons_of_mem _ he')
    simp only [extractLoop]
    cases hq : below e.Name with
    | none =>
      simp only
      obtain ⟨h1, h2, h3⟩ := ih s hsub' hF hD hN
      refine ⟨h1, h2, ?_⟩
      intro e' he' hf' q' hq'
      rcases List.mem_cons.1 he' with heq | hmem
      · subst heq; rw [hq] at hq'; cases hq'
      · exact h3 e' hmem hf' q' hq'
    | some q =>
      simp only
      cases hdir : e.IsDir with
      | true =>
        simp only [if_true]
        obtain ⟨hF1, hD1⟩ := mkdir_preserves a s q e q hF hD he hq (List.prefix_refl q)
          (fun h => by rw [hdir] at h; cases h)
        obtain ⟨h1, h2, h3⟩ := ih _ hsub' hF1 hD1 (mkdirLoop_nodup _ _ _ hN)
        refine ⟨h1, h2, ?_⟩
        intro e' he' hf' q' hq'
        rcases List.mem_cons.1 he' with heq | hmem
        · subst heq; rw [hdir] at hf'; cases hf'
        · exact h3 e' hmem hf' q' hq'
      | false =>
        simp only [Bool.false_eq_true, if_false]
        obtain ⟨hc, hF2, hD2⟩ := extract_file_step a hext s e q hF hD he hdir hq
        rw [hc]
        simp only
        have hN2 := FS.nodup_put _ q (Node.file e.data) (mkdirLoop_nodup (Dir q) s [] hN)
        obtain ⟨h1, h2, h3⟩ := ih _ hsub' hF2 hD2 hN2
        refine ⟨h1, h2, ?_⟩
        intro e' he' hf' q' hq'
        rcases List.mem_cons.1 he' with heq | hmem
        · subst heq
          rw [hq] at hq'; cases hq'
          apply extractLoop_files_persist
          have hqne : q ≠ [] := (FS.create_eq _ _ _ _ hc).2
          exact ⟨e'.data, FS.stat_put_self _ _ _ hqne⟩
        · exact h3 e' hmem hf' q' hq'

theorem extractLoop_empty (a : Archive) (hext : extractable a = true) :
    FilesFrom a (extractLoop a []) ∧ ((extractLoop a []).map Prod.fst).Nodup ∧
    ∀ e ∈ a, e.IsDir = false → ∀ q, below e.Name = some q →
      ∃ d, (extractLoop a []).stat q = some (Node.file d) := by
  apply extractLoop_spec a hext a [] (fun _ h => h)
  · intro p d h
    by_cases hp : p = []
    · subst hp; simp [FS.stat] at h
    · simp [FS.stat, hp] at h
  · intro p hp h
    simp [FS.stat, hp] at h
  · simp

theorem IsDir_false_no_slash (e : ZipEntry) (h : e.IsDir = false) :
    HasSuffix e.Name ['/'] = false := by
  simp only [ZipEntry.IsDir, Bool.or_eq_false_iff] at h
  exact h.2

theorem mem_rezip (scratch : FS) (hN : (scratch.map Prod.fst).Nodup) (e' : ZipEntry) :
    e' ∈ (scratch.descendants []).filterMap scratchEntry ↔
      ∃ p d, p ≠ [] ∧ scratch.stat p = some (Node.file d) ∧
        e' = { Name := Rel [] p, data := if HasSuffix (Rel [] p) ['/'] then [] else d,
               dirAttr := false } := by
  rw [List.mem_filterMap]
  constructor
  · rintro ⟨⟨p, n⟩, hmem, hentry⟩
    obtain ⟨hin, hp⟩ := (FS.mem_descendants_root scratch (p, n)).1 hmem
    cases n with
    | dir => simp [scratchEntry] at hentry
    | file d =>
      simp only [scratchEntry, Option.some.injEq] at hentry
      exact ⟨p, d, hp, (FS.mem_iff_stat scratch hN p _ hp).1 hin, hentry.symm⟩
  · rintro ⟨p, d, hp, hstat, rfl⟩
    refine ⟨(p, Node.file d), ?_, by simp [scratchEntry]⟩
    exact (FS.mem_descendants_root scratch _).2 ⟨(FS.mem_iff_stat scratch hN p _ hp).2 hstat, hp⟩

/-- C8 (as amended): let the archive of the snapshot be extractable (every file entry has
a cleaned relative name and no file entry lies on the way to another entry) and
let `addPath` be a cleaned relative path that is a regular file of the working
tree.  After a successful `patch` the archive holds exactly the names of the
former file entries and `addPath`, each once; the entry `addPath` carries the
bytes of the working tree, every other entry the bytes of a former entry of that
name; and the record handed to `saveVersionInfo` has `files_count` equal to the
number of these names.  From `{a.txt, b.txt}` and `newfile.txt` the result has
three entries and `files_count = 3`. -/
theorem patch_adds_entry (sizeOf : Archive → Int) (z : Zippy) (w : World)
    (version addPath : Str) (v : Version) (a : Archive) (bytes : Bytes)
    (hrec : w.records.lookup (Join z.versionsPath (version ++ ".json".toList)) = some (some v))
    (harch : w.archives.lookup (osPath z.repoPath v.ZipPath) = some a)
    (hext : extractable a = true) (hp : isCleanRel addPath = true)
    (hfile : w.fs.stat (Join z.repoPath addPath) = some (Node.file bytes))
    (hok : Msg.patchComplete ∈ (patchVersion sizeOf z w version addPath).2) :
    (∃ (a' : Archive) (v' : Version),
      (patchVersion sizeOf z w version addPath).1 =
        saveVersionInfo z
          { w with archives := (putKey w.archives (osPath z.repoPath v.ZipPath) a') } v' ∧
      (patchVersion sizeOf z w version addPath).1.archives.lookup
        (osPath z.repoPath v.ZipPath) = some a' ∧
      (∀ n, n ∈ a'.map ZipEntry.Name ↔ n = addPath ∨ n ∈ fileNames a) ∧
      (a'.map ZipEntry.Name).Nodup ∧
      (∀ e' ∈ a', e'.IsDir = false ∧ (e'.Name = addPath → e'.data = bytes) ∧
        (e'.Name ≠ addPath →
          ∃ e ∈ a, e.IsDir = false ∧ e.Name = e'.Name ∧ e.data = e'.data)) ∧
      v'.FilesCount = ((addPath :: fileNames a).toFinset.card : Int) ∧
      v'.FilesCount = (a'.length : Int)) ∧
    (patchVersion sampleSize sampleZippy
        (sampleWorld [(["repo".toList, "newfile.txt".toList], Node.file [110])] none)
        "v1".toList "newfile.txt".toList).1.archives.lookup
        (osPath ["repo".toList] sampleVersion.ZipPath) =
      some [⟨"a.txt".toList, [97], false⟩, ⟨"b.txt".toList, [98], false⟩,
            ⟨"newfile.txt".toList, [110], false⟩] ∧
    (patchVersion sampleSize sampleZippy
        (sampleWorld [(["repo".toList, "newfile.txt".toList], Node.file [110])] none)
        "v1".toList "newfile.txt".toList).1.records.lookup
        ["repo".toList, ".zippy".toList, "versions".toList, "v1.json".toList] =
      some (some { sampleVersion with FilesCount := 3, Size := 400 }) := by
  refine ⟨?_, by decide, by decide⟩
  rcases patchVersion_cases sizeOf z w version addPath with ⟨_, h⟩ | h
  · exact absurd hok h
  obtain ⟨v0, a0, info, scratch, hrec0, harch0, hstat0, hcopy, _, heq⟩ := h
  rw [hrec] at hrec0
  have hv : v = v0 := Option.some.inj (Option.some.inj hrec0)
  subst hv
  rw [harch] at harch0
  have ha : a = a0 := Option.some.inj harch0
  subst ha
  rw [hfile] at hstat0
  have hinfo : Node.file bytes = info := Option.some.inj hstat0
  subst hinfo
  obtain ⟨dst, hdst, hdne, hrender⟩ := (isCleanRel_iff addPath).1 hp
  simp only [copyIntoScratch, hdst] at hcopy
  obtain ⟨hscratch, _⟩ := FS.create_eq _ _ _ _ hcopy
  obtain ⟨hF, hN, hall⟩ := extractLoop_empty a hext
  have hNs : (scratch.map Prod.fst).Nodup := by
    rw [hscratch]
    exact FS.nodup_put _ _ _ (mkdirLoop_nodup _ _ _ hN)
  -- the regular files of the scratch tree
  have hfwd : ∀ p d, scratch.stat p = some (Node.file d) →
      (p = dst ∧ d = bytes) ∨ (p ≠ dst ∧ (extractLoop a []).stat p = some (Node.file d)) := by
    intro p d hstat
    by_cases hpd : p = dst
    · subst hpd
      rw [hscratch, FS.stat_put_self _ _ _ hdne] at hstat
      cases hstat
      exact Or.inl ⟨rfl, rfl⟩
    · right
      refine ⟨hpd, ?_⟩
      rw [hscratch, FS.stat_put_ne _ _ _ _ hpd] at hstat
      cases h0 : (extractLoop a []).stat p with
      | none =>
        have := (mkdirLoop_stat_new (Dir dst) _ [] p _ hstat h0).1
        cases this
      | some n =>
        have h1 : (MkdirAll (extractLoop a []) (Dir dst)).1.stat p = some n :=
          mkdirLoop_stat_of_some (Dir dst) _ [] p n h0
        rw [h1] at hstat
        exact hstat
  have hbwd : ∀ p, (∃ d, (extractLoop a []).stat p = some (Node.file d)) →
      ∃ d, scratch.stat p = some (Node.file d) := by
    rintro p ⟨d, hd⟩
    by_cases hpd : p = dst
    · subst hpd
      exact ⟨bytes, by rw [hscratch]; exact FS.stat_put_self _ _ _ hdne⟩
    · refine ⟨d, ?_⟩
      rw [hscratch, FS.stat_put_ne _ _ _ _ hpd]
      exact mkdirLoop_stat_of_some (Dir dst) _ [] p _ hd
  have hdstfile : scratch.stat dst = some (Node.file bytes) := by
    rw [hscratch]; exact FS.stat_put_self _ _ _ hdne
  -- every regular file of the scratch tree has a name that leads back to its place
  have hchar : ∀ p d, scratch.stat p = some (Node.file d) →
      below (render p) = some p ∧ HasSuffix (render p) ['/'] = false ∧
      ((render p = addPath ∧ d = bytes) ∨
       (render p ≠ addPath ∧ ∃ e ∈ a, e.IsDir = false ∧ e.Name = render p ∧ e.data = d)) := by
    intro p d hstat
    rcases hfwd p d hstat with ⟨h1, h2⟩ | ⟨h1, h2⟩
    · subst h1
      rw [hrender]
      exact ⟨hdst, isCleanRel_no_trailing_slash addPath hp, Or.inl ⟨rfl, h2⟩⟩
    · obtain ⟨e, he, hf, hbe, hde⟩ := hF p d h2
      obtain ⟨q, hq, _, hrq⟩ := (isCleanRel_iff e.Name).1 (extractable_file a hext e he hf).1
      rw [hbe] at hq
      cases hq
      rw [hrq]
      refine ⟨hbe, IsDir_false_no_slash e hf, Or.inr ⟨?_, e, he, hf, rfl, hde⟩⟩
      intro hname
      rw [hname, hdst] at hbe
      exact h1 (Option.some.inj hbe).symm
  have hnames : ∀ n, n ∈ ((scratch.descendants []).filterMap scratchEntry).map ZipEntry.Name ↔
      n = addPath ∨ n ∈ fileNames a := by
    intro n
    rw [List.mem_map]
    constructor
    · rintro ⟨e', he', rfl⟩
      obtain ⟨p, d, _, hstat, rfl⟩ := (mem_rezip scratch hNs e').1 he'
      obtain ⟨_, _, h3⟩ := hchar p d hstat
      simp only [Rel_root]
      rcases h3 with ⟨h3, _⟩ | ⟨_, e, he, hf, hn, _⟩
      · exact Or.inl h3
      · right
        rw [← hn]
        exact List.mem_map.2 ⟨e, List.mem_filter.2 ⟨he, by simp [hf]⟩, rfl⟩
    · rintro (rfl | hn)
      · refine ⟨_, (mem_rezip scratch hNs _).2 ⟨dst, bytes, hdne, hdstfile, rfl⟩, ?_⟩
        simp only [Rel_root, hrender]
      · obtain ⟨e, he, rfl⟩ := List.mem_map.1 hn
        obtain ⟨he, hf⟩ := List.mem_filter.1 he
        have hf : e.IsDir = false := by simpa using hf
        obtain ⟨q, hq, hqne, hrq⟩ := (isCleanRel_iff e.Name).1 (extractable_file a hext e he hf).1
        obtain ⟨d, hd⟩ := hbwd q (hall e he hf q hq)
        refine ⟨_, (mem_rezip scratch hNs _).2 ⟨q, d, hqne, hd, rfl⟩, ?_⟩
        simp only [Rel_root, hrq]
  have hnodup : (((scratch.descendants []).filterMap scratchEntry).map
      ZipEntry.Name).Nodup := by
    rw [List.map_filterMap]
    apply nodup_filterMap_on _ _ (List.Nodup.of_map _ (FS.nodup_descendants scratch [] hNs))
    rintro ⟨p1, n1⟩ h1 ⟨p2, n2⟩ h2 b hb1 hb2
    obtain ⟨hin1, hp1⟩ := (FS.mem_descendants_root scratch _).1 h1
    obtain ⟨hin2, hp2⟩ := (FS.mem_descendants_root scratch _).1 h2
    have hs1 := (FS.mem_iff_stat scratch hNs p1 n1 hp1).1 hin1
    have hs2 := (FS.mem_iff_stat scratch hNs p2 n2 hp2).1 hin2
    cases n1 with
    | dir => simp [scratchEntry] at hb1
    | file d1 =>
      cases n2 with
      | dir => simp [scratchEntry] at hb2
      | file d2 =>
        simp only [scratchEntry, Option.map_some', Option.some.injEq, Rel_root] at hb1 hb2
        have hb := (hchar p1 d1 hs1).1
        rw [hb1, ← hb2, (hchar p2 d2 hs2).1] at hb
        have hpp : p2 = p1 := Option.some.inj hb
        subst hpp
        rw [hs1] at hs2
        cases hs2
        rfl
  refine ⟨(scratch.descendants []).filterMap scratchEntry,
    { v with Size := sizeOf (rezipLoop (scratch.descendants []) [] 0).1,
             FilesCount := (rezipLoop (scratch.descendants []) [] 0).2 }, ?_, ?_, ?_, ?_, ?_, ?_, ?_⟩
  · rw [heq, rezipLoop_eq]
    simp
  · rw [heq, rezipLoop_eq]
    simp only [saveVersionInfo, List.nil_append]
    split
    · exact lookup_putKey_self _ _ _
    · exact lookup_putKey_self _ _ _
  · exact hnames
  · exact hnodup
  · intro e' he'
    obtain ⟨p, d, _, hstat, rfl⟩ := (mem_rezip scratch hNs e').1 he'
    obtain ⟨_, h2, h3⟩ := hchar p d hstat
    simp only [Rel_root, h2, ZipEntry.IsDir, Bool.or_self, Bool.false_eq_true, if_false, true_and]
    rcases h3 with ⟨h3, h4⟩ | ⟨h3, e, he, hf, hn, hd⟩
    · exact ⟨fun _ => h4, fun h => absurd h3 h⟩
    · exact ⟨fun h => absurd h h3, fun _ => ⟨e, he, hf, hn, hd⟩⟩
  · rw [rezipLoop_eq]
    have hset : (addPath :: fileNames a).toFinset =
        (((scratch.descendants []).filterMap scratchEntry).map ZipEntry.Name).toFinset := by
      ext n
      simp only [List.mem_toFinset, List.mem_cons]
      exact (hnames n).symm
    rw [hset, List.toFinset_card_of_nodup hnodup]
    simp
  · rw [rezipLoop_eq]
    simp

/-- Witness for C8: `patch v1 newfile.txt` on the snapshot `{a.txt, b.txt}`. -/
theorem patch_adds_entry_witness :
    ∃ (a' : Archive) (v' : Version),
      (patchVersion sampleSize sampleZippy
        (sampleWorld [(["repo".toList, "newfile.txt".toList], Node.file [110])] none)
        "v1".toList "newfile.txt".toList).1.archives.lookup
        (osPath sampleZippy.repoPath sampleVersion.ZipPath) = some a' ∧
      (∀ n, n ∈ a'.map ZipEntry.Name ↔
        n = "newfile.txt".toList ∨ n ∈ fileNames sampleArchive) ∧
      v'.FilesCount = (("newfile.txt".toList :: fileNames sampleArchive).toFinset.card : Int) := by
  obtain ⟨a', v', _, h2, h3, _, _, h6, _⟩ := (patch_adds_entry sampleSize sampleZippy
    (sampleWorld [(["repo".toList, "newfile.txt".toList], Node.file [110])] none)
    "v1".toList "newfile.txt".toList sampleVersion sampleArchive [110]
    (by decide) (by decide) (by decide) (by decide) (by decide) (by decide)).1
  exact ⟨a', v', h2, h3, h6⟩

/-- Counterexample to C8 as stated.  First, `patch v1 ./newfile.txt` on the snapshot
`{a.txt, b.txt}` succeeds and the archive then holds `newfile.txt`, not the path
`./newfile.txt` that was given.  Second, after `add ./a.txt` the commit `v2` holds
the entry `./a.txt`; `patch v2 newfile.txt` succeeds and leaves the entries
`a.txt` and `newfile.txt`: the former entry `./a.txt` is gone.  Third, from an
archive with the file entries `a` and `a/b`, `patch v1 newfile.txt` succeeds and
leaves `a` and `newfile.txt`: the entry `a/b` cannot be unpacked below the file
`a` and is lost. -/
theorem patch_renames_uncleaned_paths :
    (patchVersion sampleSize sampleZippy
        (sampleWorld [(["repo".toList, "newfile.txt".toList], Node.file [110])] none)
        "v1".toList "./newfile.txt".toList).2 =
      [Msg.patching "v1".toList "./newfile.txt".toList, Msg.patchComplete] ∧
    ((patchVersion sampleSize sampleZippy
        (sampleWorld [(["repo".toList, "newfile.txt".toList], Node.file [110])] none)
        "v1".toList "./newfile.txt".toList).1.archives.lookup
        (osPath ["repo".toList] sampleVersion.ZipPath)).map (fun a => a.map ZipEntry.Name) =
      some ["a.txt".toList, "b.txt".toList, "newfile.txt".toList] ∧
    ((commit sampleSize sampleZippy ["zippy".toList, "commit".toList, "-v".toList, "v2".toList]
        5 6 (sampleWorld [(["repo".toList, "a.txt".toList], Node.file [97]),
            (["repo".toList, "newfile.txt".toList], Node.file [110])]
          (some ["./a.txt".toList]))).1.archives.lookup
        (osPath ["repo".toList] "/repo/.zippy/storage/v2.zip".toList)).map
        (fun a => a.map ZipEntry.Name) = some ["./a.txt".toList] ∧
    (patchVersion sampleSize sampleZippy
        (commit sampleSize sampleZippy
          ["zippy".toList, "commit".toList, "-v".toList, "v2".toList]
          5 6 (sampleWorld [(["repo".toList, "a.txt".toList], Node.file [97]),
              (["repo".toList, "newfile.txt".toList], Node.file [110])]
            (some ["./a.txt".toList]))).1
        "v2".toList "newfile.txt".toList).2 =
      [Msg.patching "v2".toList "newfile.txt".toList, Msg.patchComplete] ∧
    ((patchVersion sampleSize sampleZippy
        (commit sampleSize sampleZippy
          ["zippy".toList, "commit".toList, "-v".toList, "v2".toList]
          5 6 (sampleWorld [(["repo".toList, "a.txt".toList], Node.file [97]),
              (["repo".toList, "newfile.txt".toList], Node.file [110])]
            (some ["./a.txt".toList]))).1
        "v2".toList "newfile.txt".toList).1.archives.lookup
        (osPath ["repo".toList] "/repo/.zippy/storage/v2.zip".toList)).map
        (fun a => a.map ZipEntry.Name) = some ["a.txt".toList, "newfile.txt".toList] ∧
    (patchVersion sampleSize sampleZippy
        (sampleWorldWith [⟨"a".toList, [1], false⟩, ⟨"a/b".toList, [2], false⟩]
          [(["repo".toList, "newfile.txt".toList], Node.file [110])] none)
        "v1".toList "newfile.txt".toList).2 =
      [Msg.patching "v1".toList "newfile.txt".toList, Msg.patchComplete] ∧
    ((patchVersion sampleSize sampleZippy
        (sampleWorldWith [⟨"a".toList, [1], false⟩, ⟨"a/b".toList, [2], false⟩]
          [(["repo".toList, "newfile.txt".toList], Node.file [110])] none)
        "v1".toList "newfile.txt".toList).1.archives.lookup
        (osPath ["repo".toList] sampleVersion.ZipPath)).map (fun a => a.map ZipEntry.Name) =
      some ["a".toList, "newfile.txt".toList] := by
  decide

/-! ## C16: coverage of the two key sets -/

/-- C16: with `common` the paths that are keys of both maps, the paths that `diff` reports
as added or changed together with `common` are exactly the keys of `B` (second
version), and the paths it reports as removed together with `common` are exactly
the keys of `A` (first version). -/
theorem diffMaps_coverage (A B : FMap) (p : Str) :
    ((p ∈ (diffMaps A B).added ∨ p ∈ (diffMaps A B).changed ∨ (p ∈ A.keys ∧ p ∈ B.keys)) ↔
      p ∈ B.keys) ∧
    ((p ∈ (diffMaps A B).removed ∨ (p ∈ A.keys ∧ p ∈ B.keys)) ↔ p ∈ A.keys) := by
  constructor
  · constructor
    · rintro (h | h | h)
      · exact ((mem_diffLoopNew_added A B p).1 h).1
      · exact (diffLoopNew_changed_sublist A B).subset h
      · exact h.2
    · intro h
      by_cases hA : p ∈ A.keys
      · exact Or.inr (Or.inr ⟨hA, h⟩)
      · exact Or.inl ((mem_diffLoopNew_added A B p).2 ⟨h, (FMap.get_eq_none_iff A p).2 hA⟩)
  · constructor
    · rintro (h | h)
      · exact ((mem_diffLoopOld B A p).1 h).1
      · exact h.1
    · intro h
      by_cases hB : p ∈ B.keys
      · exact Or.inr ⟨h, hB⟩
      · exact Or.inl ((mem_diffLoopOld B A p).2 ⟨h, (FMap.get_eq_none_iff B p).2 hB⟩)

/-! ## C14: the order of the sequences that `diff` presents -/

theorem FMap.get_of_mem (m : FMap) (hm : m.keys.Nodup) (k : Str) (v : Nat)
    (h : (k, v) ∈ m) : m.get k = some v := by
  induction m with
  | nil => simp at h
  | cons kv m ih =>
    obtain ⟨k', v'⟩ := kv
    simp only [FMap.keys, List.map_cons, List.nodup_cons] at hm
    rcases List.mem_cons.1 h with h | h
    · cases h; simp [FMap.get, List.lookup]
    · have hk : k ∈ m.map Prod.fst := List.mem_map.2 ⟨(k, v), h, rfl⟩
      have hne : k ≠ k' := fun e => hm.1 (e ▸ hk)
      have h' : (k == k') = false := by simpa using hne
      simp only [FMap.get, List.lookup, h']
      exact ih hm.2 h

theorem FMap.mem_of_get (m : FMap) (k : Str) (v : Nat) (h : m.get k = some v) : (k, v) ∈ m := by
  induction m with
  | nil => simp [FMap.get] at h
  | cons kv m ih =>
    obtain ⟨k', v'⟩ := kv
    by_cases hk : k = k'
    · subst hk
      simp only [FMap.get, List.lookup, beq_self_eq_true] at h
      cases h
      exact List.mem_cons_self _ _
    · have h' : (k == k') = false := by simpa using hk
      simp only [FMap.get, List.lookup, h'] at h
      exact List.mem_cons_of_mem _ (ih h)

/-- Two enumerations of one map answer every read alike. -/
theorem FMap.get_perm (m m' : FMap) (hm : m.keys.Nodup) (h : m.Perm m') (k : Str) :
    m.get k = m'.get k := by
  have hm' : m'.keys.Nodup := (h.map Prod.fst).nodup_iff.1 hm
  cases hg : m.get k with
  | none =>
    have h1 : k ∉ m'.keys := fun hk =>
      (FMap.get_eq_none_iff m k).1 hg ((h.map Prod.fst).mem_iff.2 hk)
    exact ((FMap.get_eq_none_iff m' k).2 h1).symm
  | some v =>
    exact (FMap.get_of_mem m' hm' k v (h.mem_iff.1 (FMap.mem_of_get m k v hg))).symm

/-- C14 (as amended): `diff` presents each sequence in the order in which the range loop
visits the map it walks (the second version's map for added and changed, the first
version's map for removed) and does not sort it.  Whatever order the maps
enumerate their keys in, each sequence holds the same paths, each once: the
outputs for two enumerations of the same maps are permutations of one another,
and sorting them by path gives the same sequences. -/
theorem diffMaps_order (A A' B B' : FMap) (hA : A.keys.Nodup) (hB : B.keys.Nodup)
    (hAA : A.Perm A') (hBB : B.Perm B') :
    ((diffMaps A B).added.Sublist B.keys ∧ (diffMaps A B).changed.Sublist B.keys ∧
      (diffMaps A B).removed.Sublist A.keys) ∧
    ((diffMaps A B).added.Perm (diffMaps A' B').added ∧
      (diffMaps A B).removed.Perm (diffMaps A' B').removed ∧
      (diffMaps A B).changed.Perm (diffMaps A' B').changed) ∧
    ((diffMaps A B).added.insertionSort (· ≤ ·) =
        (diffMaps A' B').added.insertionSort (· ≤ ·) ∧
      (diffMaps A B).removed.insertionSort (· ≤ ·) =
        (diffMaps A' B').removed.insertionSort (· ≤ ·) ∧
      (diffMaps A B).changed.insertionSort (· ≤ ·) =
        (diffMaps A' B').changed.insertionSort (· ≤ ·)) := by
  have hA' : A'.keys.Nodup := (hAA.map Prod.fst).nodup_iff.1 hA
  have hB' : B'.keys.Nodup := (hBB.map Prod.fst).nodup_iff.1 hB
  have hkA : ∀ p, p ∈ A.keys ↔ p ∈ A'.keys := fun p => (hAA.map Prod.fst).mem_iff
  have hkB : ∀ p, p ∈ B.keys ↔ p ∈ B'.keys := fun p => (hBB.map Prod.fst).mem_iff
  have hgA := FMap.get_perm A A' hA hAA
  have hgB := FMap.get_perm B B' hB hBB
  have padd : (diffMaps A B).added.Perm (diffMaps A' B').added := by
    apply (List.perm_ext_iff_of_nodup ((diffLoopNew_added_sublist A B).nodup hB)
      ((diffLoopNew_added_sublist A' B').nodup hB')).2
    intro p
    simp only [diffMaps, mem_diffLoopNew_added, hkB p, hgA p]
  have prem : (diffMaps A B).removed.Perm (diffMaps A' B').removed := by
    apply (List.perm_ext_iff_of_nodup ((diffLoopOld_sublist B A).nodup hA)
      ((diffLoopOld_sublist B' A').nodup hA')).2
    intro p
    simp only [diffMaps, mem_diffLoopOld, hkA p, hgB p]
  have pchg : (diffMaps A B).changed.Perm (diffMaps A' B').changed := by
    apply (List.perm_ext_iff_of_nodup ((diffLoopNew_changed_sublist A B).nodup hB)
      ((diffLoopNew_changed_sublist A' B').nodup hB')).2
    intro p
    simp only [diffMaps, mem_diffLoopNew_changed A B hB, mem_diffLoopNew_changed A' B' hB',
      hgA p, hgB p]
  have hsort : ∀ l l' : List Str, l.Perm l' →
      l.insertionSort (· ≤ ·) = l'.insertionSort (· ≤ ·) := fun l l' h =>
    List.eq_of_perm_of_sorted
      ((List.perm_insertionSort _ l).trans (h.trans (List.perm_insertionSort _ l').symm))
      (List.sorted_insertionSort _ l) (List.sorted_insertionSort _ l')
  exact ⟨⟨diffLoopNew_added_sublist A B, diffLoopNew_changed_sublist A B,
      diffLoopOld_sublist B A⟩, ⟨padd, prem, pchg⟩,
    ⟨hsort _ _ padd, hsort _ _ prem, hsort _ _ pchg⟩⟩

/-- Witness for C14: the second version's map enumerated as `b.txt, a.txt` and as
`a.txt, b.txt`. -/
theorem diffMaps_order_witness :
    (diffMaps [] [("b.txt".toList, 1), ("a.txt".toList, 2)]).added.Perm
      (diffMaps [] [("a.txt".toList, 2), ("b.txt".toList, 1)]).added :=
  (diffMaps_order [] [] [("b.txt".toList, 1), ("a.txt".toList, 2)]
    [("a.txt".toList, 2), ("b.txt".toList, 1)] (by decide) (by decide) (List.Perm.refl _)
    (by decide)).2.1.1

/-- Counterexample to C14 as stated: when the map of the second version is enumerated as
`b.txt, a.txt`, `diff` presents the added paths as `b.txt, a.txt`, which is not in
ascending order; enumerated as `a.txt, b.txt`, the same map gives another
output. -/
theorem diffMaps_unsorted :
    (diffMaps [] [("b.txt".toList, 1), ("a.txt".toList, 2)]).added =
      ["b.txt".toList, "a.txt".toList] ∧
    ¬ ((diffMaps [] [("b.txt".toList, 1), ("a.txt".toList, 2)]).added).Sorted (· ≤ ·) ∧
    (diffMaps [] [("a.txt".toList, 2), ("b.txt".toList, 1)]).added ≠
      (diffMaps [] [("b.txt".toList, 1), ("a.txt".toList, 2)]).added := by
  decide

/-! ## C12: `add .` and the metadata directory -/

/-- C12 (the code at the failing input): in a repository that holds `a.txt` and, in its
metadata directory, `.zippy/config.json`, `add .` without an ignore file stages
`.zippy/config.json`; so it does with an ignore file whose only pattern is
`*.log`.  With the pattern `.zippy/` the directory is entered all the same and
its files are ignored one by one. -/
theorem add_all_stages_metadata :
    (addFiles sampleZippy none
      { fs := initialisedTree [(["repo".toList, "a.txt".toList], Node.file [97])],
        stage := none, records := [], archives := [] } [".".toList]).1.stage =
      some [".zippy/config.json".toList, "a.txt".toList] ∧
    (addFiles sampleZippy (some ["*.log".toList])
      { fs := initialisedTree [(["repo".toList, "a.txt".toList], Node.file [97])],
        stage := none, records := [], archives := [] } [".".toList]).1.stage =
      some [".zippy/config.json".toList, "a.txt".toList] ∧
    shouldIgnore [".zippy/".toList] ".zippy".toList = false ∧
    (addFiles sampleZippy (some [".zippy/".toList])
      { fs := initialisedTree [(["repo".toList, "a.txt".toList], Node.file [97])],
        stage := none, records := [], archives := [] } [".".toList]).1.stage =
      some ["a.txt".toList] := by
  decide

/-! ## C13: what `add` persists -/

theorem addedNames_append (l₁ l₂ : List Msg) :
    addedNames (l₁ ++ l₂) = addedNames l₁ ++ addedNames l₂ := by
  simp [addedNames, List.filterMap_append]

theorem mem_stagedSet (staged : List Str) (r n : Str) :
    n ∈ stagedSet staged r ↔ n ∈ staged ∨ n = r := by
  unfold stagedSet
  split
  · rename_i h
    constructor
    · exact Or.inl
    · rintro (h1 | rfl)
      · exact h1
      · exact h
  · simp

theorem nodup_stagedSet (staged : List Str) (r : Str) (h : staged.Nodup) :
    (stagedSet staged r).Nodup := by
  unfold stagedSet
  split
  · exact h
  · rename_i hr
    exact List.Nodup.append h (List.nodup_singleton r) (by
      intro a ha hb
      simp only [List.mem_singleton] at hb
      exact hr (hb ▸ ha))

theorem StagedMatches_step (staged : List Str) (log : List Msg) (r : Str)
    (h : StagedMatches staged log) :
    StagedMatches (stagedSet staged r) (log ++ [Msg.added r]) := by
  refine ⟨nodup_stagedSet staged r h.1, fun n => ?_⟩
  rw [mem_stagedSet, addedNames_append, List.mem_append, h.2 n]
  simp [addedNames]

theorem StagedMatches_note (staged : List Str) (log : List Msg) (m : Msg)
    (hm : ∀ n, m ≠ Msg.added n) (h : StagedMatches staged log) :
    StagedMatches staged (log ++ [m]) := by
  refine ⟨h.1, fun n => ?_⟩
  rw [addedNames_append, List.mem_append, h.2 n]
  cases m <;> simp_all [addedNames]

theorem addWalk_matches (z : Zippy) (zippyignore : List Str) (L : List (Path × Node)) :
    ∀ (skipped : List Path) (staged : List Str) (log : List Msg),
      StagedMatches staged log →
      StagedMatches (addWalk z zippyignore L skipped staged log).1
        (addWalk z zippyignore L skipped staged log).2 := by
  induction L with
  | nil => intro skipped staged log h; simpa [addWalk] using h
  | cons kv L ih =>
    intro skipped staged log h
    obtain ⟨path, info⟩ := kv
    simp only [addWalk]
    split
    · exact ih _ _ _ h
    · split
      · exact ih _ _ _ h
      · split
        · split
          · exact ih _ _ _ h
          · exact ih _ _ _ h
        · split
          · exact ih _ _ _ (StagedMatches_step _ _ _ h)
          · exact ih _ _ _ h

theorem addPaths_matches (z : Zippy) (zippyignore : List Str) (fs : FS) (paths : List Str) :
    ∀ (staged : List Str) (log : List Msg), StagedMatches staged log →
      StagedMatches (addPaths z zippyignore fs paths staged log).1
        (addPaths z zippyignore fs paths staged log).2 := by
  induction paths with
  | nil => intro staged log h; simpa [addPaths] using h
  | cons p rest ih =>
    intro staged log h
    simp only [addPaths]
    split
    · exact ih _ _ (StagedMatches_note _ _ _ (by intro n; simp) h)
    · split
      · exact ih _ _ (StagedMatches_note _ _ _ (by intro n; simp) h)
      · split
        · exact ih _ _ (addWalk_matches z zippyignore _ [] staged log h)
        · exact ih _ _ (StagedMatches_step _ _ _ h)

theorem resolveStaged_matches (z : Zippy) (zippyignore : List Str) (fs : FS) (paths : List Str) :
    StagedMatches (resolveStaged z zippyignore fs paths).1
      (resolveStaged z zippyignore fs paths).2 := by
  have h0 : StagedMatches [] [Msg.addingFiles] := by
    refine ⟨List.nodup_nil, fun n => ?_⟩
    simp [addedNames]
  unfold resolveStaged
  split
  · exact addWalk_matches z zippyignore _ [] [] _ h0
  · exact addPaths_matches z zippyignore fs paths [] _ h0

/-- C13 (as amended): `add` changes nothing but the staged-entry file.  When the invocation
resolves at least one path as added and the staged-entry file can be written, the
persisted staged set is exactly the set of paths that this invocation reported as
added, stored in ascending order without duplicates, whatever was staged before.
When the invocation resolves no path at all, it reports that no files were added
and leaves the staged-entry file as it was. -/
theorem addFiles_stage (z : Zippy) (lines : Option (List Str)) (w : World) (paths : List Str) :
    (∃ st, (addFiles z lines w paths).1 = { w with stage := st }) ∧
    (addedNames (addFiles z lines w paths).2 ≠ [] → w.canWrite z.stagePath = true →
      ∃ l, (addFiles z lines w paths).1.stage = some l ∧ l.Sorted (· < ·) ∧
        ∀ n, n ∈ l ↔ n ∈ addedNames (addFiles z lines w paths).2) ∧
    (addedNames (addFiles z lines w paths).2 = [] →
      (addFiles z lines w paths).1 = w ∧ Msg.noFilesAdded ∈ (addFiles z lines w paths).2) := by
  have hm := resolveStaged_matches z (loadZippyIgnore lines) w.fs paths
  have hempty : (resolveStaged z (loadZippyIgnore lines) w.fs paths).1.length = 0 ↔
      addedNames (resolveStaged z (loadZippyIgnore lines) w.fs paths).2 = [] := by
    rw [List.length_eq_zero]
    constructor
    · intro h
      apply List.eq_nil_iff_forall_not_mem.2
      intro n hn
      have := (hm.2 n).2 hn
      rw [h] at this
      exact absurd this (List.not_mem_nil n)
    · intro h
      apply List.eq_nil_iff_forall_not_mem.2
      intro n hn
      have := (hm.2 n).1 hn
      rw [h] at this
      exact absurd this (List.not_mem_nil n)
  by_cases hz : (resolveStaged z (loadZippyIgnore lines) w.fs paths).1.length = 0
  · have hlog : addedNames (addFiles z lines w paths).2 = [] := by
      simp only [addFiles, if_pos hz, addedNames_append, hempty.1 hz]
      simp [addedNames]
    refine ⟨⟨w.stage, ?_⟩, ?_, ?_⟩
    · simp only [addFiles, if_pos hz]
    · intro h; exact absurd hlog h
    · intro _
      have hval : addFiles z lines w paths =
          (w, (resolveStaged z (loadZippyIgnore lines) w.fs paths).2 ++ [Msg.noFilesAdded]) := by
        simp only [addFiles, if_pos hz]
      rw [hval]
      exact ⟨rfl, List.mem_append_right _ (List.mem_singleton_self _)⟩
  · have hlog : addedNames (addFiles z lines w paths).2 =
        addedNames (resolveStaged z (loadZippyIgnore lines) w.fs paths).2 := by
      simp only [addFiles, if_neg hz]
      split <;> rfl
    refine ⟨?_, ?_, ?_⟩
    · simp only [addFiles, if_neg hz]
      split
      · exact ⟨_, rfl⟩
      · exact ⟨w.stage, rfl⟩
    · intro _ hw
      refine ⟨(resolveStaged z (loadZippyIgnore lines) w.fs paths).1.insertionSort (· ≤ ·),
        ?_, ?_, ?_⟩
      · simp only [addFiles, if_neg hz, if_pos hw]
      · exact (List.sorted_insertionSort _ _).lt_of_le
          ((List.perm_insertionSort _ _).nodup_iff.2 hm.1)
      · intro n
        rw [hlog, (List.perm_insertionSort _ _).mem_iff]
        exact hm.2 n
    · intro h
      rw [hlog] at h
      exact absurd (hempty.2 h) hz

/-- Witness for C13: `add a.txt nosuch.txt a.txt` when `old.txt` was staged before. -/
theorem addFiles_stage_witness :
    ∃ l, (addFiles sampleZippy none
        (sampleWorld [(["repo".toList, "a.txt".toList], Node.file [97])]
          (some ["old.txt".toList]))
        ["a.txt".toList, "nosuch.txt".toList, "a.txt".toList]).1.stage = some l ∧
      l.Sorted (· < ·) ∧
      ∀ n, n ∈ l ↔ n ∈ addedNames (addFiles sampleZippy none
        (sampleWorld [(["repo".toList, "a.txt".toList], Node.file [97])]
          (some ["old.txt".toList]))
        ["a.txt".toList, "nosuch.txt".toList, "a.txt".toList]).2 :=
  (addFiles_stage sampleZippy none
    (sampleWorld [(["repo".toList, "a.txt".toList], Node.file [97])] (some ["old.txt".toList]))
    ["a.txt".toList, "nosuch.txt".toList, "a.txt".toList]).2.1 (by decide) (by decide)

/-- Counterexample to C13 as stated: `old.txt` is staged; `add nosuch.txt` resolves no path,
reports that no files were added, and the staged-entry file still holds `old.txt`.
Where the staged-entry file cannot be written (here its path is a directory),
`add a.txt` reports `a.txt` as added and persists nothing. -/
theorem addFiles_keeps_earlier_stage :
    addFiles sampleZippy none (sampleWorld [] (some ["old.txt".toList]))
        ["nosuch.txt".toList] =
      (sampleWorld [] (some ["old.txt".toList]),
        [Msg.addingFiles, Msg.notFound "nosuch.txt".toList, Msg.noFilesAdded]) ∧
    addedNames (addFiles sampleZippy none (sampleWorld [] (some ["old.txt".toList]))
        ["nosuch.txt".toList]).2 = [] ∧
    (addFiles sampleZippy none (sampleWorld [] (some ["old.txt".toList]))
        ["nosuch.txt".toList]).1.stage = some ["old.txt".toList] ∧
    addFiles sampleZippy none
        (sampleWorld [(["repo".toList, "a.txt".toList], Node.file [97]),
            (["repo".toList, ".zippy".toList, "stage.json".toList], Node.dir)]
          (some ["old.txt".toList]))
        ["a.txt".toList] =
      (sampleWorld [(["repo".toList, "a.txt".toList], Node.file [97]),
            (["repo".toList, ".zippy".toList, "stage.json".toList], Node.dir)]
          (some ["old.txt".toList]),
        [Msg.addingFiles, Msg.added "a.txt".toList]) := by
  decide

/-! ## C15: the latest version that `status` selects -/

theorem latestLoop_eq_pickLatest (z : Zippy) (w : World) (files : List Str) :
    ∀ latest : Str × Int,
      latestLoop z w files latest = pickLatest (candidates z w files) latest := by
  induction files with
  | nil => intro latest; rfl
  | cons name rest ih =>
    intro latest
    simp only [latestLoop, candidates, List.filterMap_cons]
    split
    · exact ih latest
    · split
      · rename_i v hv
        simp only [hv, pickLatest]
        split
        · exact ih _
        · exact ih _
      · rename_i hv
        have : (match List.lookup (Join z.versionsPath name) w.records with
            | some (some v) => some (name, v)
            | _ => none) = none := by
          split
          · rename_i v' hv'
            exact absurd hv' (hv v')
          · rfl
        simp only [this]
        exact ih latest

/-- What the selection loop returns: either the state it started from, when no record is
later, or the first record among those with the greatest timestamp. -/
theorem pickLatest_spec (cands : List (Str × Version)) :
    ∀ latest : Str × Int,
      (∀ c ∈ cands, c.2.Timestamp ≤ (pickLatest cands latest).2) ∧
      latest.2 ≤ (pickLatest cands latest).2 ∧
      ((pickLatest cands latest = latest ∧ ∀ c ∈ cands, c.2.Timestamp ≤ latest.2) ∨
        ∃ pre v post, cands = pre ++ ((pickLatest cands latest).1, v) :: post ∧
          v.Timestamp = (pickLatest cands latest).2 ∧ latest.2 < v.Timestamp ∧
          ∀ c ∈ pre, c.2.Timestamp < v.Timestamp) := by
  induction cands with
  | nil =>
    intro latest
    refine ⟨fun c hc => absurd hc (List.not_mem_nil c), le_refl _, Or.inl ⟨rfl, ?_⟩⟩
    intro c hc
    exact absurd hc (List.not_mem_nil c)
  | cons c rest ih =>
    intro latest
    simp only [pickLatest]
    by_cases hc : c.2.Timestamp > latest.2
    · simp only [if_pos hc]
      obtain ⟨h1, h2, h3⟩ := ih (c.1, c.2.Timestamp)
      simp only at h2
      refine ⟨?_, le_trans (le_of_lt hc) h2, Or.inr ?_⟩
      · intro c' hc'
        rcases List.mem_cons.1 hc' with rfl | hc'
        · exact h2
        · exact h1 c' hc'
      · rcases h3 with ⟨heq, hall⟩ | ⟨pre, v, post, hsplit, hv, hlt, hpre⟩
        · refine ⟨[], c.2, rest, ?_, ?_, hc, ?_⟩
          · rw [heq]; rfl
          · rw [heq]
          · intro c' hc'; exact absurd hc' (List.not_mem_nil c')
        · simp only at hlt
          refine ⟨c :: pre, v, post, ?_, hv, lt_trans hc hlt, ?_⟩
          · exact congrArg (List.cons c) hsplit
          · intro c' hc'
            rcases List.mem_cons.1 hc' with rfl | hc'
            · exact hlt
            · exact hpre c' hc'
    · simp only [if_neg hc]
      have hle : c.2.Timestamp ≤ latest.2 := not_lt.1 hc
      obtain ⟨h1, h2, h3⟩ := ih latest
      refine ⟨?_, h2, ?_⟩
      · intro c' hc'
        rcases List.mem_cons.1 hc' with rfl | hc'
        · exact le_trans hle h2
        · exact h1 c' hc'
      · rcases h3 with ⟨heq, hall⟩ | ⟨pre, v, post, hsplit, hv, hlt, hpre⟩
        · left
          refine ⟨heq, ?_⟩
          intro c' hc'
          rcases List.mem_cons.1 hc' with rfl | hc'
          · exact hle
          · exact hall c' hc'
        · right
          refine ⟨c :: pre, v, post, ?_, hv, hlt, ?_⟩
          · exact congrArg (List.cons c) hsplit
          · intro c' hc'
            rcases List.mem_cons.1 hc' with rfl | hc'
            · exact lt_of_le_of_lt hle hlt
            · exact hpre c' hc'

theorem candidates_names_sublist (z : Zippy) (w : World) (files : List Str) :
    ((candidates z w files).map Prod.fst).Sublist files := by
  induction files with
  | nil => simp [candidates]
  | cons name rest ih =>
    simp only [candidates, List.filterMap_cons] at ih ⊢
    split
    · exact ih.cons _
    · rename_i c hc
      have hname : c.1 = name := by
        split at hc
        · cases hc
        · split at hc
          · cases hc; rfl
          · cases hc
      simp only [List.map_cons, hname]
      exact ih.cons₂ _

theorem readVersionsDir_sorted (z : Zippy) (w : World) (files : List Str)
    (h : readVersionsDir z w = some files) : files.Sorted (· < ·) := by
  unfold readVersionsDir at h
  split at h
  · cases h
    exact (List.sorted_insertionSort _ _).lt_of_le
      ((List.perm_insertionSort _ _).nodup_iff.2 (List.nodup_dedup _))
  · cases h

/-- C15 (as amended): the selection loop of `status` looks only at the `.json` files of the
versions directory that parse; unparsable files play no part.  When some such
record has a timestamp after the zero time, the loop picks a record whose
timestamp is the maximum over them, and among the records that share the maximum
the one whose file name comes first in the directory listing (file names in
ascending order); this is the same on every run.  When no record has a timestamp
after the zero time, the loop picks none. -/
theorem latest_selection (z : Zippy) (w : World) (files : List Str)
    (hdir : readVersionsDir z w = some files) :
    latestFile z w files = (pickLatest (candidates z w files) ([], zeroTime)).1 ∧
    ((∀ c ∈ candidates z w files, c.2.Timestamp ≤ zeroTime) → latestFile z w files = []) ∧
    ((∃ c ∈ candidates z w files, zeroTime < c.2.Timestamp) →
      ∃ v, (latestFile z w files, v) ∈ candidates z w files ∧
        (∀ c ∈ candidates z w files, c.2.Timestamp ≤ v.Timestamp) ∧
        (∀ c ∈ candidates z w files, c.2.Timestamp = v.Timestamp →
          latestFile z w files ≤ c.1)) := by
  have heq : latestFile z w files = (pickLatest (candidates z w files) ([], zeroTime)).1 := by
    simp only [latestFile, latestLoop_eq_pickLatest]
  obtain ⟨hmax, _, hcase⟩ := pickLatest_spec (candidates z w files) ([], zeroTime)
  refine ⟨heq, ?_, ?_⟩
  · intro hall
    rcases hcase with ⟨h, _⟩ | ⟨pre, v, post, hsplit, _, hlt, _⟩
    · rw [heq, h]
    · generalize (pickLatest (candidates z w files) ([], zeroTime)).1 = nm at hsplit
      have hmem : (nm, v) ∈ candidates z w files := by
        rw [hsplit]; exact List.mem_append_right _ (List.mem_cons_self _ _)
      exact absurd hlt (not_lt.2 (hall _ hmem))
  · rintro ⟨c0, hc0, hpos⟩
    rcases hcase with ⟨_, hall⟩ | ⟨pre, v, post, hsplit, hv, _, hpre⟩
    · exact absurd hpos (not_lt.2 (hall c0 hc0))
    · have hsorted : ((candidates z w files).map Prod.fst).Sorted (· < ·) :=
        (readVersionsDir_sorted z w files hdir).sublist (candidates_names_sublist z w files)
      rw [heq]
      generalize (pickLatest (candidates z w files) ([], zeroTime)).1 = nm at hsplit ⊢
      refine ⟨v, ?_, ?_, ?_⟩
      · rw [hsplit]; exact List.mem_append_right _ (List.mem_cons_self _ _)
      · intro c hc; rw [hv]; exact hmax c hc
      · intro c hc hts
        rw [hsplit] at hc
        rcases List.mem_append.1 hc with hc | hc
        · exact absurd hts (ne_of_lt (hpre c hc))
        · rcases List.mem_cons.1 hc with rfl | hc
          · exact le_refl _
          · rw [hsplit, List.map_append, List.map_cons] at hsorted
            have h2 := (List.pairwise_cons.1 (List.pairwise_append.1 hsorted).2.1).1
            exact le_of_lt (h2 c.1 (List.mem_map.2 ⟨c, hc, rfl⟩))

/-- Witness for C15: the records `v1` (timestamp 1000) and `v0` (timestamp 7) next to an
unparsable file. -/
theorem latest_selection_witness :
    ∃ v, (latestFile sampleZippy
          (sampleWorldRecords [("v1.json".toList, some sampleVersion),
            ("bad.json".toList, none),
            ("v0.json".toList, some { sampleVersion with Tag := "v0".toList, Timestamp := 7 })]
            sampleArchive [])
          ["bad.json".toList, "v0.json".toList, "v1.json".toList], v) ∈
        candidates sampleZippy
          (sampleWorldRecords [("v1.json".toList, some sampleVersion),
            ("bad.json".toList, none),
            ("v0.json".toList, some { sampleVersion with Tag := "v0".toList, Timestamp := 7 })]
            sampleArchive [])
          ["bad.json".toList, "v0.json".toList, "v1.json".toList] ∧
      ∀ c ∈ candidates sampleZippy
          (sampleWorldRecords [("v1.json".toList, some sampleVersion),
            ("bad.json".toList, none),
            ("v0.json".toList, some { sampleVersion with Tag := "v0".toList, Timestamp := 7 })]
            sampleArchive [])
          ["bad.json".toList, "v0.json".toList, "v1.json".toList],
        c.2.Timestamp ≤ v.Timestamp := by
  obtain ⟨v, h1, h2, _⟩ := (latest_selection sampleZippy
    (sampleWorldRecords [("v1.json".toList, some sampleVersion),
      ("bad.json".toList, none),
      ("v0.json".toList, some { sampleVersion with Tag := "v0".toList, Timestamp := 7 })]
      sampleArchive [])
    ["bad.json".toList, "v0.json".toList, "v1.json".toList] (by decide)).2.2
    ⟨("v1.json".toList, sampleVersion), by decide, by decide⟩
  exact ⟨v, h1, h2⟩

/-- Counterexample to C15 as stated.  First, a versions directory whose only record has
the zero time as its timestamp is a non-empty collection of loadable records, and
the loop picks none: `status` makes no comparison.  Second, with the records `v1`
and `v1-a` of equal timestamp the loop picks the file `v1-a.json`, the first file
name of the listing, although the tag `v1` comes before the tag `v1-a`. -/
theorem latest_selection_edge_cases :
    candidates sampleZippy
        (sampleWorldRecords
          [("v1.json".toList, some { sampleVersion with Timestamp := zeroTime })]
          sampleArchive [])
        ["v1.json".toList] =
      [("v1.json".toList, { sampleVersion with Timestamp := zeroTime })] ∧
    readVersionsDir sampleZippy
        (sampleWorldRecords
          [("v1.json".toList, some { sampleVersion with Timestamp := zeroTime })]
          sampleArchive []) = some ["v1.json".toList] ∧
    latestFile sampleZippy
        (sampleWorldRecords
          [("v1.json".toList, some { sampleVersion with Timestamp := zeroTime })]
          sampleArchive [])
        ["v1.json".toList] = [] ∧
    statusCompare sampleZippy []
        (sampleWorldRecords
          [("v1.json".toList, some { sampleVersion with Timestamp := zeroTime })]
          sampleArchive []) = [] ∧
    readVersionsDir sampleZippy
        (sampleWorldRecords
          [("v1.json".toList, some { sampleVersion with Timestamp := 5 }),
           ("v1-a.json".toList,
             some { sampleVersion with Tag := "v1-a".toList, Timestamp := 5 })]
          sampleArchive []) = some ["v1-a.json".toList, "v1.json".toList] ∧
    latestFile sampleZippy
        (sampleWorldRecords
          [("v1.json".toList, some { sampleVersion with Timestamp := 5 }),
           ("v1-a.json".toList,
             some { sampleVersion with Tag := "v1-a".toList, Timestamp := 5 })]
          sampleArchive [])
        ["v1-a.json".toList, "v1.json".toList] = "v1-a.json".toList ∧
    ("v1".toList : Str) < "v1-a".toList := by
  decide

/-! ## C11: the paths that `status` reports -/

/-- C11 (the code at the failing input): the only pattern is `build`; the latest version
`v1` holds `k.txt`; the working tree holds `.zippyignore`, `k.txt` (unchanged) and
`build/x.txt`.  `shouldIgnore` matches the directory `build`.  The first walk of
`status` prunes it: `build` is listed as ignored and `build/x.txt` is not among
the files to be committed.  The second walk does not prune: it records
`build/x.txt` as a live file, and the comparison reports `build/x.txt`, which
lies under the ignored directory `build`, as new. -/
theorem status_reports_under_ignored_directory :
    shouldIgnore (loadZippyIgnore (some ["build".toList])) "build".toList = true ∧
    statusWalk sampleZippy (loadZippyIgnore (some ["build".toList]))
        (walkList
          (sampleWorldRecords [("v1.json".toList, some sampleVersion)]
            [⟨"k.txt".toList, [1], false⟩]
            [(["repo".toList, ".zippyignore".toList], Node.file [98, 117, 105, 108, 100, 10]),
             (["repo".toList, "build".toList], Node.dir),
             (["repo".toList, "build".toList, "x.txt".toList], Node.file [1]),
             (["repo".toList, "k.txt".toList], Node.file [1])]).fs
          sampleZippy.repoPath) [] [] [] =
      (["k.txt".toList], ["build".toList]) ∧
    (currentFilesWalk sampleZippy (loadZippyIgnore (some ["build".toList]))
        (walkList
          (sampleWorldRecords [("v1.json".toList, some sampleVersion)]
            [⟨"k.txt".toList, [1], false⟩]
            [(["repo".toList, ".zippyignore".toList], Node.file [98, 117, 105, 108, 100, 10]),
             (["repo".toList, "build".toList], Node.dir),
             (["repo".toList, "build".toList, "x.txt".toList], Node.file [1]),
             (["repo".toList, "k.txt".toList], Node.file [1])]).fs
          sampleZippy.repoPath) []).keys =
      ["build/x.txt".toList, "k.txt".toList] ∧
    status sampleZippy (some ["build".toList])
        (sampleWorldRecords [("v1.json".toList, some sampleVersion)]
          [⟨"k.txt".toList, [1], false⟩]
          [(["repo".toList, ".zippyignore".toList], Node.file [98, 117, 105, 108, 100, 10]),
           (["repo".toList, "build".toList], Node.dir),
           (["repo".toList, "build".toList, "x.txt".toList], Node.file [1]),
           (["repo".toList, "k.txt".toList], Node.file [1])]) =
      [Msg.statusHeader, Msg.toBeCommitted "k.txt".toList, Msg.ignoredFile "build".toList,
       Msg.comparedToLatest, Msg.newFile "build/x.txt".toList] := by
  decide

end ZippyVC
